import Mathlib

/-
  Verification of the layout-assignment pipeline in
  lib/Dialect/TritonGPU/Transforms/RemoveLayoutConversions.cpp.

  The C++ pass is shallowly embedded: MLIR values are natural numbers,
  operations are records carrying their kind tag, operand/result lists and
  (for loop/while constructs) their region arguments, and a program is a
  finite list of operations together with typing information.  The
  `llvm::MapVector<Value, LayoutInfo>` is embedded as an insertion-ordered
  association list whose entries are insertion-ordered duplicate-free lists
  of encodings (mirroring `SmallSetVector<Attribute, 8>`).

  External oracles that live outside this file's source (the layout
  inference oracle, the expensive-load/store cost oracle, the backward
  slice computation) are either modelled from the specification or passed
  as explicit function parameters, as noted on each definition.
-/

set_option maxRecDepth 4000

namespace RLC

/-- Values of the embedded IR are identified by numbers (SSA identity). -/
abbrev Value := Nat

/-- Families of layout encoding attributes that the pass distinguishes via
`isa` tests: `BlockedEncodingAttr`, `NvidiaMmaEncodingAttr`,
`DotOperandEncodingAttr`, shared-memory encodings, and everything else. -/
inductive EncFamily where
  | blocked
  | nvidiaMma
  | dotOperand
  | sharedEnc
  | otherEnc
deriving DecidableEq

/-- A layout encoding attribute: its family, the `versionMajor` field read
off `NvidiaMmaEncodingAttr`, and an opaque tag so that distinct attributes
of one family stay distinguishable (attributes compare by equality). -/
structure Encoding where
  family : EncFamily
  versionMajor : Nat
  tag : Nat
deriving DecidableEq

/-- The type of an IR value: whether it is a `RankedTensorType`, its layout
encoding, and an opaque tag standing for the shape and element type. -/
structure VType where
  isTensor : Bool
  encoding : Encoding
  shapeTag : Nat
deriving DecidableEq

/-- Operation kind tags for the operations the pass pattern-matches on. -/
inductive OpKind where
  | load
  | store
  | atomicRMW
  | atomicCAS
  | dot
  | reshape (allowReorder : Bool)
  | convertLayout
  | forOp
  | whileOp
  | ifOp
  | yieldOp
  | conditionOp
  | reduce
  | expandDims
  | join
  | split
  | extractSlice
  | allocTensor
  | insertSliceAsync
  | otherOp
deriving DecidableEq

/-- An operation of the embedded IR.  `iterArgs` are the region iteration
arguments of an `scf.for`; `beforeArgs`/`afterArgs` the region arguments of
an `scf.while`; `parent` is the id of the enclosing loop/conditional for
`scf.yield` and `scf.condition` terminators.  `expensive` records the
verdict of the external cost oracle `isExpensiveLoadOrStore`, and
`traitElt` records whether the operation carries the
`SameOperandsAndResultEncoding` or `Elementwise` trait (trait assignment is
supplied by the surrounding type system, spec section 6). -/
structure Operation where
  kind : OpKind
  operands : List Value := []
  results : List Value := []
  iterArgs : List Value := []
  beforeArgs : List Value := []
  afterArgs : List Value := []
  parent : Option Nat := none
  expensive : Bool := false
  traitElt : Bool := false
deriving DecidableEq

/-- A function body: the flat list of operations (indices are operation
ids), the function arguments, the typing of values, and the refusal
predicate of the external inference oracle (spec section 4.2: the oracle
either propagates a layout unchanged or refuses). -/
structure Program where
  ops : List Operation
  funcArgs : List Value := []
  typeOf : Value → VType
  refuses : Nat → Encoding → Bool := fun _ _ => false

/-- Pair each list element with its index, starting at `i`. -/
def withIdx {α : Type} : Nat → List α → List (Nat × α)
  | _, [] => []
  | i, a :: l => (i, a) :: withIdx (i + 1) l

/-- All the uses of a value: the pairs (operation id, operand number) at
which it appears as an operand, mirroring `Value::getUses()`. -/
def Program.usesOf (P : Program) (v : Value) : List (Nat × Nat) :=
  ((withIdx 0 P.ops).map fun p =>
    (withIdx 0 p.2.operands).filterMap fun q =>
      if q.2 = v then some (p.1, q.1) else none).flatten

/-- The id of the operation defining a value, mirroring
`Value::getDefiningOp()` (none for block arguments / function args). -/
def Program.defOf (P : Program) (v : Value) : Option Nat :=
  ((withIdx 0 P.ops).find? fun p => decide (v ∈ p.2.results)).map Prod.fst

/-- The operation defining a value, if any. -/
def opDef (P : Program) (v : Value) : Option Operation :=
  (P.defOf v).bind fun i => P.ops.get? i

/-- Every value mentioned by an operation. -/
def Operation.valueSet (op : Operation) : List Value :=
  op.operands ++ op.results ++ op.iterArgs ++ op.beforeArgs ++ op.afterArgs

/-- Every value mentioned by the program. -/
def Program.allValues (P : Program) : List Value :=
  P.funcArgs ++ (P.ops.map Operation.valueSet).flatten

/-- Total number of operand slots of the program (a counting bound). -/
def Program.usesTotal (P : Program) : Nat :=
  (P.ops.map fun op => op.operands.length).sum

/-!  ## The Value-Layout Map

`llvm::MapVector<Value, LayoutInfo>` with
`LayoutInfo = SmallSetVector<Attribute, 8>`: an insertion-ordered map from
values to insertion-ordered duplicate-free lists of encodings. -/

/-- The embedded `MapVector<Value, LayoutInfo>`. -/
abbrev LayoutMap := List (Value × List Encoding)

/-- Lookup of a value's candidate-encoding list (`layouts.find`). -/
def lookupEncs : LayoutMap → Value → Option (List Encoding)
  | [], _ => none
  | p :: rest, v => if p.1 = v then some p.2 else lookupEncs rest v

/-- The keys of the map, in insertion order. -/
def keysOf (m : LayoutMap) : List Value := m.map Prod.fst

/-- All encodings stored anywhere in the map. -/
def encsOf (m : LayoutMap) : List Encoding := (m.map Prod.snd).flatten

/-- Total number of stored candidate encodings. -/
def totalSize (m : LayoutMap) : Nat := (m.map fun p => p.2.length).sum

/-- `SmallSetVector::insert`: append if absent; the flag reports whether
the set changed. -/
def insertEnc (l : List Encoding) (e : Encoding) : List Encoding × Bool :=
  if e ∈ l then (l, false) else (l ++ [e], true)

/-- `layouts[value].encodings.insert(enc)`: update the entry of `v` (first
occurrence) or create a fresh singleton entry; the flag reports whether an
encoding was newly inserted. -/
def mapInsert : LayoutMap → Value → Encoding → LayoutMap × Bool
  | [], v, e => ([(v, [e])], true)
  | p :: rest, v, e =>
    if p.1 = v then
      match insertEnc p.2 e with
      | (l', ch) => ((p.1, l') :: rest, ch)
    else
      match mapInsert rest v e with
      | (m', ch) => (p :: m', ch)

/-- `MapVector::insert({v, info})`: no overwrite when the key exists. -/
def mapVectorInsert (m : LayoutMap) (v : Value) (l : List Encoding) : LayoutMap :=
  if v ∈ keysOf m then m else m ++ [(v, l)]

/-!  ## Forward propagation (LayoutPropagation) -/

/-- Modelled from the spec: the external inference oracle
`inferDstEncoding` (declared in the repository's Utility header, defined
outside the sources given here).  Spec section 4.2: layout-preserving,
elementwise, reduction, shape-changing and control-flow users "propagate
directly into all results unchanged, subject to the external inference
oracle which may refuse (returns no destination)".  So the oracle either
returns the candidate encoding unchanged or refuses. -/
def inferDstEncoding (P : Program) (opId : Nat) (e : Encoding) : Option Encoding :=
  if P.refuses opId e then none else some e

/-- The destination encoding for one candidate at one user: a
`ConvertLayoutOp` keeps the candidate itself (trying to make the convert
disappear); any other user consults the oracle. -/
def dstEncodingFor (P : Program) (opId : Nat) (op : Operation) (e : Encoding) :
    Option Encoding :=
  if op.kind = OpKind.convertLayout then some e else inferDstEncoding P opId e

/-- The inner `for (auto encoding : info.encodings)` loop of
`LayoutPropagation::setEncoding` for one value: insert each candidate's
destination encoding, accumulating the `hasChanged` flag. -/
def setEncGo (P : Program) (opId : Nat) (op : Operation) (v : Value) :
    List Encoding → LayoutMap → Bool → LayoutMap × Bool
  | [], m, b => (m, b)
  | e :: rest, m, b =>
    match dstEncodingFor P opId op e with
    | some d => setEncGo P opId op v rest (mapInsert m v d).1 (b || (mapInsert m v d).2)
    | none => setEncGo P opId op v rest m b

/-- One value's part of `LayoutPropagation::setEncoding`: skip non-tensor
values; otherwise run the candidate loop.  The flag is `hasChanged`. -/
def setEncodingValue (P : Program) (opId : Nat) (op : Operation)
    (info : List Encoding) (m : LayoutMap) (v : Value) : LayoutMap × Bool :=
  if (P.typeOf v).isTensor then setEncGo P opId op v info m false
  else (m, false)

/-- `LayoutPropagation::setEncoding`: process the given values in order,
appending each value whose entry changed to the `changed` list. -/
def setEncoding (P : Program) (opId : Nat) (op : Operation) (info : List Encoding)
    (values : List Value) (st : LayoutMap × List Value) : LayoutMap × List Value :=
  values.foldl
    (fun acc v =>
      ((setEncodingValue P opId op info acc.1 v).1,
       if (setEncodingValue P opId op info acc.1 v).2 then acc.2 ++ [v] else acc.2))
    st

/-- Is the kind one of `ReduceOp, ExpandDimsOp, ReshapeOp, JoinOp, SplitOp,
ConvertLayoutOp` (the `isa` list in `propagateToUsers`)? -/
def OpKind.isPropagatedResultKind : OpKind → Bool
  | OpKind.reduce | OpKind.expandDims | OpKind.reshape _
  | OpKind.join | OpKind.split | OpKind.convertLayout => true
  | _ => false

/-- One use's part of `LayoutPropagation::propagateToUsers`, dispatching on
the user's kind exactly as the dyn_cast chain does. -/
def propagateUse (P : Program) (info : List Encoding)
    (acc : LayoutMap × List Value) (use : Nat × Nat) : LayoutMap × List Value :=
  match P.ops.get? use.1 with
  | none => acc
  | some user =>
    match user.kind with
    | OpKind.forOp =>
      -- scf.for operands are lower bound, upper bound, step, then the
      -- init args; a use at operand n >= 3 is tied to iteration argument
      -- and result n - 3 (getTiedLoopRegionIterArg / getTiedLoopResult).
      if use.2 < 3 then acc
      else
        setEncoding P use.1 user info
          ((user.iterArgs.get? (use.2 - 3)).toList ++
           (user.results.get? (use.2 - 3)).toList) acc
    | OpKind.whileOp =>
      setEncoding P use.1 user info (user.beforeArgs.get? use.2).toList acc
    | OpKind.yieldOp =>
      match user.parent.bind fun pid => P.ops.get? pid with
      | none => acc
      | some parentOp =>
        if parentOp.kind = OpKind.forOp ∨ parentOp.kind = OpKind.ifOp ∨
            parentOp.kind = OpKind.whileOp then
          setEncoding P use.1 user info
            ((if parentOp.kind = OpKind.forOp ∨ parentOp.kind = OpKind.ifOp then
                (parentOp.results.get? use.2).toList
              else []) ++
             (if parentOp.kind = OpKind.forOp then
                (parentOp.iterArgs.get? use.2).toList
              else []) ++
             (if parentOp.kind = OpKind.whileOp then
                (parentOp.beforeArgs.get? use.2).toList ++
                (parentOp.operands.get? use.2).toList
              else []))
            acc
        else acc
    | OpKind.conditionOp =>
      match user.parent.bind fun pid => P.ops.get? pid with
      | none => acc
      | some parentOp =>
        -- Operand 0 is the boolean condition (never a tensor); operand i
        -- maps to after-region argument i - 1 and while result i - 1.
        if use.2 = 0 then acc
        else
          setEncoding P use.1 user info
            ((parentOp.afterArgs.get? (use.2 - 1)).toList ++
             (parentOp.results.get? (use.2 - 1)).toList) acc
    | k =>
      if user.traitElt || k.isPropagatedResultKind then
        setEncoding P use.1 user info user.results acc
      else acc

/-- `LayoutPropagation::propagateToUsers`: fold over all uses of `value`,
collecting the values whose candidate set changed. -/
def propagateToUsers (P : Program) (v : Value) (info : List Encoding)
    (m : LayoutMap) : LayoutMap × List Value :=
  (P.usesOf v).foldl (propagateUse P info) (m, [])

/-- State of the worklist fixpoint in `LayoutPropagation::propagateLayout`. -/
structure PState where
  layouts : LayoutMap
  queue : List Value
deriving DecidableEq

/-- One iteration of the `while (!queue.empty())` loop: pop the back of the
queue, read (copy) the value's `LayoutInfo` — `layouts[currentValue]` is
`MapVector::operator[]`, which default-constructs an empty entry for an
absent key — propagate to the users and append the changed values. -/
def propStep (P : Program) (s : PState) : PState :=
  match s.queue.getLast? with
  | none => s
  | some v =>
    let mi : LayoutMap × List Encoding :=
      match lookupEncs s.layouts v with
      | some l => (s.layouts, l)
      | none => (s.layouts ++ [(v, [])], [])
    { layouts := (propagateToUsers P v mi.2 mi.1).1,
      queue := s.queue.dropLast ++ (propagateToUsers P v mi.2 mi.1).2 }

/-!  ## Anchors (initAnchorLayout) -/

/-- `isLayoutAnchor`: loads/stores anchor when the cost oracle flags them
expensive; dot and atomic ops always anchor; a reshape anchors when it
allows reordering. -/
def isLayoutAnchor (op : Operation) : Bool :=
  match op.kind with
  | OpKind.load | OpKind.store => op.expensive
  | OpKind.dot | OpKind.atomicRMW | OpKind.atomicCAS => true
  | OpKind.reshape allowReorder => allowReorder
  | _ => false

/-- Fuel bound used to run the modelled MLIR `getForwardSlice` worklist. -/
def fwdFuel (P : Program) : Nat :=
  (P.ops.length + 1) * (P.usesTotal + 1) + 1

/-- Worklist of the modelled `getForwardSlice`: drain op ids, adding each
new one to the accumulated slice together with the users of its results. -/
def forwardSliceGo (P : Program) : Nat → List Nat → List Nat → List Nat
  | 0, _, acc => acc
  | _ + 1, [], acc => acc
  | f + 1, i :: rest, acc =>
    if i ∈ acc then forwardSliceGo P f rest acc
    else
      match P.ops.get? i with
      | none => forwardSliceGo P f rest acc
      | some op =>
        forwardSliceGo P f
          (rest ++ (op.results.map fun r => (P.usesOf r).map Prod.fst).flatten)
          (acc ++ [i])

/-- Modelled external MLIR utility `getForwardSlice(value, &slice)`:
accumulates into `acc` every operation transitively reachable from `v`
through uses (the SetVector keeps insertion order). -/
def getForwardSlice (P : Program) (v : Value) (acc : List Nat) : List Nat :=
  forwardSliceGo P (fwdFuel P) ((P.usesOf v).map Prod.fst) acc

/-- The convert-destination test of `hasConvertToMMATransisitiveUse`
(source lines 158-164): a convert whose destination encoding is an MMA
layout answers `versionMajor > 1` or equality with `encoding`; one whose
destination is a dot-operand layout answers whether `encoding` has
`versionMajor > 1`; other destinations decide nothing. -/
def convertMMACheck (encoding dstE : Encoding) : Option Bool :=
  if dstE.family = EncFamily.nvidiaMma then
    some (if dstE.versionMajor > 1 then true else decide (dstE = encoding))
  else if dstE.family = EncFamily.dotOperand then
    some (decide (encoding.versionMajor > 1))
  else none

/-- The yield scan of `hasConvertToMMATransisitiveUse`: for each yield
operand whose defining op lies in the slice and that was not yet seen,
mark it seen and enqueue the corresponding loop iteration argument. -/
def yieldBackEdges (P : Program) (slice : List Nat) (parentOp : Operation)
    (operandsIdx : List (Nat × Value)) (qa : List Value) (seen : List Value) :
    List Value × List Value :=
  operandsIdx.foldl
    (fun acc q =>
      match P.defOf q.2 with
      | some d =>
        if d ∈ slice ∧ q.2 ∉ acc.2 then
          match parentOp.iterArgs.get? q.1 with
          | some a => (acc.1 ++ [a], acc.2 ++ [q.2])
          | none => (acc.1, acc.2 ++ [q.2])
        else acc
      | none => acc)
    (qa, seen)

/-- Scan the accumulated forward slice in order: the first convert whose
destination decides returns its verdict; yields nested in `scf.for` record
loop back-edges to follow. -/
def scanSlice (P : Program) (encoding : Encoding) (slice : List Nat) :
    List Nat → List Value → List Value → Sum Bool (List Value × List Value)
  | [], qa, seen => Sum.inr (qa, seen)
  | i :: rest, qa, seen =>
    match P.ops.get? i with
    | none => scanSlice P encoding slice rest qa seen
    | some op =>
      match
        (match op.kind with
         | OpKind.convertLayout =>
           match op.results.get? 0 with
           | some r => convertMMACheck encoding (P.typeOf r).encoding
           | none => none
         | _ => none) with
      | some b => Sum.inl b
      | none =>
        if op.kind = OpKind.yieldOp then
          match op.parent.bind fun pid => P.ops.get? pid with
          | some parentOp =>
            if parentOp.kind = OpKind.forOp then
              match yieldBackEdges P slice parentOp (withIdx 0 op.operands) qa seen with
              | (qa', seen') => scanSlice P encoding slice rest qa' seen'
            else scanSlice P encoding slice rest qa seen
          | none => scanSlice P encoding slice rest qa seen
        else scanSlice P encoding slice rest qa seen

/-- Fuel bound for the outer worklist of `hasConvertToMMATransisitiveUse`. -/
def hasCvtFuel (P : Program) : Nat :=
  (P.usesTotal + P.ops.length + 2) * (P.usesTotal + P.ops.length + 2)

/-- The outer worklist of `hasConvertToMMATransisitiveUse` (lines 153-179):
pop a value, grow the accumulated forward slice from it, scan the slice for
a deciding convert, and otherwise continue with the recorded back-edge
iteration arguments. -/
def hasCvtGo (P : Program) (encoding : Encoding) :
    Nat → List Value → List Nat → List Value → Bool
  | 0, _, _, _ => false
  | f + 1, queue, slice, seen =>
    match queue.getLast? with
    | none => false
    | some v =>
      let slice' := getForwardSlice P v slice
      match scanSlice P encoding slice' slice' [] seen with
      | Sum.inl b => b
      | Sum.inr qs => hasCvtGo P encoding f (queue.dropLast ++ qs.1) slice' qs.2

/-- `hasConvertToMMATransisitiveUse(op, encoding)`: look ahead through the
transitive uses of the operation's first result (following loop back-edges
from yielded values to iteration arguments) for a convert into an MMA or
dot-operand layout. -/
def hasConvertToMMATransisitiveUse (P : Program) (i : Nat) (encoding : Encoding) : Bool :=
  match (P.ops.get? i).bind fun op => op.results.get? 0 with
  | none => false
  | some r0 => hasCvtGo P encoding (hasCvtFuel P) [r0] [] []

/-- The skip test inside `maybeAddAnchor`: a value whose tensor type
carries an MMA encoding and that has a defining operation is skipped unless
the transitive-use search succeeds. -/
def mmaSkip (P : Program) (defIdx : Option Nat) (v : Value) : Bool :=
  decide ((P.typeOf v).encoding.family = EncFamily.nvidiaMma) &&
    (match defIdx with
     | some i => !(hasConvertToMMATransisitiveUse P i (P.typeOf v).encoding)
     | none => false)

/-- `maybeAddAnchor` from `initAnchorLayout`: tensor-typed values get a
singleton `LayoutInfo` with their current encoding, except for skipped MMA
results; `defIdx` is `v.getDefiningOp()` (none for function arguments). -/
def maybeAddAnchor (P : Program) (defIdx : Option Nat) (m : LayoutMap) (v : Value) :
    LayoutMap :=
  if (P.typeOf v).isTensor then
    if mmaSkip P defIdx v then m
    else mapVectorInsert m v [(P.typeOf v).encoding]
  else m

/-- `LayoutPropagation::initAnchorLayout`: seed function arguments, then
the results of every anchor operation. -/
def initAnchorLayout (P : Program) : LayoutMap :=
  (withIdx 0 P.ops).foldl
    (fun m p =>
      if isLayoutAnchor p.2 then p.2.results.foldl (maybeAddAnchor P (some p.1)) m
      else m)
    (P.funcArgs.foldl (maybeAddAnchor P none) [])

/-- The initial worklist state of `propagateLayout`: the queue holds every
anchored value. -/
def initPropState (P : Program) : PState :=
  { layouts := initAnchorLayout P, queue := keysOf (initAnchorLayout P) }

/-!  ## Conflict resolution (resolveConflicts) -/

/-- Is the defining operation a load, store or atomic (the `isLoadOrStore`
test of `resolveConflicts`)? -/
def isLoadStoreAtomic (op? : Option Operation) : Bool :=
  match op? with
  | some op =>
    match op.kind with
    | OpKind.load | OpKind.store | OpKind.atomicRMW | OpKind.atomicCAS => true
    | _ => false
  | none => false

/-- The per-entry body of `resolveConflicts`: entries with at most one
candidate are untouched; otherwise the first candidate is the default,
overridden by the first blocked encoding for load/store/atomic definers
and by the first MMA encoding otherwise. -/
def resolveEntry (op? : Option Operation) (encs : List Encoding) : List Encoding :=
  match encs with
  | [] => []
  | [e] => [e]
  | e0 :: _ =>
    [(encs.find? fun e =>
        if isLoadStoreAtomic op? then decide (e.family = EncFamily.blocked)
        else decide (e.family = EncFamily.nvidiaMma)).getD e0]

/-- `LayoutPropagation::resolveConflicts`: collapse every entry, consulting
the defining operation of the entry's value. -/
def resolveConflicts (P : Program) (m : LayoutMap) : LayoutMap :=
  m.map fun p => (p.1, resolveEntry (opDef P p.1) p.2)

/-!  ## The rewrite phase: getValueAs

State of one `LayoutPropagation` rewrite pass: the resolved layouts, the
`rewriteMapping : DenseMap<(Value, Attribute), Value>`, the types of freshly
created values, the list of conversion operations inserted so far (each as
source value, target encoding, result value), and a fresh-id counter. -/

structure RWState where
  base : Program
  layouts : LayoutMap
  rewriteMapping : List ((Value × Encoding) × Value) := []
  newTypes : List (Value × VType) := []
  convsCreated : List (Value × Encoding × Value) := []
  nextId : Nat

/-- Typing in a rewrite state: freshly created values first, then the
program's own typing. -/
def typeOfS (s : RWState) (v : Value) : VType :=
  match s.newTypes.find? fun p => decide (p.1 = v) with
  | some p => p.2
  | none => s.base.typeOf v

/-- `rewriteMapping[{value, encoding}]` (a missing entry is the null Value,
whose use would trip the `assert(rewrittenValue)`; modelled as `none`). -/
def lookupMapping (s : RWState) (v : Value) (e : Encoding) : Option Value :=
  (s.rewriteMapping.find? fun p => decide (p.1 = (v, e))).map Prod.snd

/-- `LayoutPropagation::getValueAs(value, encoding)`: resolve `value`
through the rewrite mapping to its rewritten form and, when that form's
encoding still differs from the requested one, create a fresh
`ConvertLayoutOp` right after it and return the conversion's result.  The
source notes "TODO: we could cache the conversion": nothing records the
created conversion in any map.  `none` models a tripped assertion
(an empty resolved entry or a missing rewrite-mapping entry). -/
def getValueAs (s : RWState) (value : Value) (encoding : Encoding) :
    Option (RWState × Value) :=
  if (typeOfS s value).isTensor then
    match
      (match lookupEncs s.layouts value with
       | none => some value
       | some encs =>
         match encs with
         | [] => none
         | picked :: _ =>
           if picked = (typeOfS s value).encoding then some value
           else lookupMapping s value picked) with
    | none => none
    | some rewrittenValue =>
      if (typeOfS s rewrittenValue).encoding = encoding then
        some (s, rewrittenValue)
      else
        some
          ({ s with
              newTypes :=
                s.newTypes ++
                  [(s.nextId,
                    { isTensor := true, encoding := encoding,
                      shapeTag := (typeOfS s value).shapeTag })],
              convsCreated := s.convsCreated ++ [(rewrittenValue, encoding, s.nextId)],
              nextId := s.nextId + 1 },
           s.nextId)
  else some (s, value)

/-!  ## Rematerialization -/

/-- `canBeRemat`: loads/stores are rematerializable unless the cost oracle
flags them expensive; slice/alloc/async-copy, atomics, dot, and
if/while/condition control constructs never are; everything else is. -/
def canBeRemat (op : Operation) : Bool :=
  match op.kind with
  | OpKind.load | OpKind.store => !op.expensive
  | OpKind.extractSlice | OpKind.allocTensor | OpKind.insertSliceAsync
  | OpKind.atomicRMW | OpKind.atomicCAS | OpKind.dot => false
  | OpKind.ifOp | OpKind.whileOp | OpKind.conditionOp => false
  | _ => true

/-- The type of the external backward-slice computation
`getConvertBackwardSlice` (defined in the repository's Utility translation
unit, outside the sources given here): from a root value and the desired
root encoding it either fails or produces the slice and the layout each
slice value should take.  It is passed as a parameter. -/
abbrev BackSliceFn := Value → Encoding → Option (List Value × List (Value × Encoding))

/-- `getRematerializableSlice`: run the backward slice; fail when it fails
or is empty; then fail unless every operation defining a slice member can
be rematerialized. -/
def getRematerializableSlice (P : Program) (backSlice : BackSliceFn)
    (root : Value) (rootEncoding : Encoding) :
    Option (List Value × List (Value × Encoding)) :=
  match backSlice root rootEncoding with
  | none => none
  | some sl =>
    if sl.1.isEmpty then none
    else if sl.1.all fun v =>
        match opDef P v with
        | some op => canBeRemat op
        | none => true then
      some sl
    else none

/-- Modelled from the spec: the external helper `hasSharedEncoding`
(repository Utility, outside the given sources); spec section 4.5 skips
conversions where either side involves the "shared/staging-memory layout
family". -/
def hasSharedEncoding (P : Program) (v : Value) : Bool :=
  (P.typeOf v).isTensor && decide ((P.typeOf v).encoding.family = EncFamily.sharedEnc)

/-- A residual `ConvertLayoutOp` handed to the rematerializer: its source
value and its result value (the result's type is the conversion target). -/
structure CvtOp where
  src : Value
  result : Value
deriving DecidableEq

/-- The type of `rewriteSlice`, the mutation step that duplicates the
accepted slice in the target layout; passed as a parameter because claim C8
is about the decline paths that run before any mutation. -/
abbrev RewriteSliceFn :=
  Program → List Value → List (Value × Encoding) → CvtOp → Program

/-- `backwardRematerialization(convertOp)`: skip conversions touching a
shared encoding, skip dot-operand targets, skip failed slices — each skip
returns the program untouched — and otherwise rewrite the slice. -/
def backwardRematerialization (P : Program) (backSlice : BackSliceFn)
    (rewriteSliceFn : RewriteSliceFn) (cvt : CvtOp) : Program :=
  if hasSharedEncoding P cvt.result || hasSharedEncoding P cvt.src then P
  else if decide ((P.typeOf cvt.result).encoding.family = EncFamily.dotOperand) then P
  else
    match getRematerializableSlice P backSlice cvt.src (P.typeOf cvt.result).encoding with
    | none => P
    | some sl => rewriteSliceFn P sl.1 sl.2 cvt

/-!  ## The ConvertDotConvert pattern -/

/-- Number of uses reached from `op->user_begin()/user_end()`: all uses of
all the operation's results. -/
def opUseCount (P : Program) (op : Operation) : Nat :=
  (op.results.map fun r => (P.usesOf r).length).sum

/-- The values matched by a successful `ConvertDotConvert` rewrite: the
conversion's dot source, the dot's accumulator operand, and the load result
feeding the accumulator through the intervening conversion. -/
structure DotConvertMatch where
  dotSrc : Value
  acc : Value
  loadVal : Value
deriving DecidableEq

/-- `ConvertDotConvert::matchAndRewrite` on operation `i`, following the
source's check order: the convert's source must be defined by a `DotOp`;
the convert and the dot must each have exactly one use; the dot's
accumulator (operand 2) must be defined by a `ConvertLayoutOp` whose source
is defined by a `LoadOp`; and the convert's result type must equal the load
result's type.  On success the pattern rewrites the convert into
`add(convert(dot(a, b, splat 0)), load)`; the returned structure records
the matched values. -/
def convertDotConvert (P : Program) (i : Nat) : Option DotConvertMatch :=
  match P.ops.get? i with
  | none => none
  | some dstOp =>
    if dstOp.kind = OpKind.convertLayout then
      match dstOp.operands.get? 0 with
      | none => none
      | some srcV =>
        match opDef P srcV with
        | none => none
        | some dotOp =>
          if dotOp.kind = OpKind.dot then
            if opUseCount P dstOp = 1 then
              if opUseCount P dotOp = 1 then
                match dotOp.operands.get? 2 with
                | none => none
                | some accV =>
                  match opDef P accV with
                  | none => none
                  | some cvtOp =>
                    if cvtOp.kind = OpKind.convertLayout then
                      match cvtOp.operands.get? 0 with
                      | none => none
                      | some cvtSrc =>
                        match opDef P cvtSrc with
                        | none => none
                        | some ldOp =>
                          if ldOp.kind = OpKind.load then
                            match dstOp.results.get? 0 with
                            | none => none
                            | some dstRes =>
                              if P.typeOf dstRes = P.typeOf cvtSrc then
                                some { dotSrc := srcV, acc := accV, loadVal := cvtSrc }
                              else none
                          else none
                    else none
              else none
            else none
          else none
    else none

/-- The structural chain named by claim C9: a layout conversion whose
source is a matmul whose accumulator comes from exactly one intervening
conversion of a load result. -/
structure DotConvertParts where
  dstOp : Operation
  srcV : Value
  dotOp : Operation
  accV : Value
  cvtOp : Operation
  cvtSrc : Value
  ldOp : Operation

/-- Recognize the structural chain of claim C9. -/
def dotConvertParts (P : Program) (i : Nat) : Option DotConvertParts :=
  match P.ops.get? i with
  | none => none
  | some dstOp =>
    if dstOp.kind = OpKind.convertLayout then
      match dstOp.operands.get? 0 with
      | none => none
      | some srcV =>
        match opDef P srcV with
        | none => none
        | some dotOp =>
          if dotOp.kind = OpKind.dot then
            match dotOp.operands.get? 2 with
            | none => none
            | some accV =>
              match opDef P accV with
              | none => none
              | some cvtOp =>
                if cvtOp.kind = OpKind.convertLayout then
                  match cvtOp.operands.get? 0 with
                  | none => none
                  | some cvtSrc =>
                    match opDef P cvtSrc with
                    | none => none
                    | some ldOp =>
                      if ldOp.kind = OpKind.load then
                        some { dstOp := dstOp, srcV := srcV, dotOp := dotOp,
                               accV := accV, cvtOp := cvtOp, cvtSrc := cvtSrc,
                               ldOp := ldOp }
                      else none
                else none
          else none
    else none

/-- The applicability condition exactly as claim C9 states it: the
conversion's source is a matmul, the matmul's accumulator is produced by
exactly one intervening layout conversion whose source is a load, and both
the matmul and its consuming conversion have exactly one user. -/
def convertDotConvertClaimCond (P : Program) (i : Nat) : Bool :=
  match dotConvertParts P i with
  | none => false
  | some parts =>
    decide (opUseCount P parts.dstOp = 1) && decide (opUseCount P parts.dotOp = 1)

/-- The extra condition the source imposes beyond claim C9's wording: the
conversion's result type equals the type of the load result feeding the
accumulator. -/
def convertDotConvertTypeCond (P : Program) (i : Nat) : Bool :=
  match dotConvertParts P i with
  | none => false
  | some parts =>
    match parts.dstOp.results.get? 0 with
    | none => false
    | some dstRes => decide (P.typeOf dstRes = P.typeOf parts.cvtSrc)

/-- The conflict-resolution choice as claim C4 states it: the first
candidate in insertion order by default; for a load/store/atomic definer,
overridden by the first blocked-family candidate in insertion order; for
any other definer, overridden by the first MMA-family candidate in
insertion order, if present. -/
def specResolveChoice (isLS : Bool) (encs : List Encoding) : Option Encoding :=
  match encs with
  | [] => none
  | e0 :: _ =>
    if isLS then
      some (((encs.filter fun e => decide (e.family = EncFamily.blocked)).head?).getD e0)
    else
      some (((encs.filter fun e => decide (e.family = EncFamily.nvidiaMma)).head?).getD e0)

/-!  ## Basic lemmas about the embedded map -/

/-- The entry of a value, defaulting to the empty candidate list. -/
def entryOf (m : LayoutMap) (v : Value) : List Encoding := (lookupEncs m v).getD []

theorem withIdx_mem_snd {α : Type} {p : Nat × α} :
    ∀ {n : Nat} {l : List α}, p ∈ withIdx n l → p.2 ∈ l := by
  intro n l
  induction l generalizing n with
  | nil => intro h; simp [withIdx] at h
  | cons a t ih =>
    intro h
    simp only [withIdx, List.mem_cons] at h
    rcases h with h | h
    · subst h; simp
    · exact List.mem_cons_of_mem _ (ih h)

theorem withIdx_mem_iff {α : Type} {j : Nat} {a : α} :
    ∀ {n : Nat} {l : List α}, (j, a) ∈ withIdx n l ↔ ∃ k, j = n + k ∧ l.get? k = some a := by
  intro n l
  induction l generalizing n with
  | nil => simp [withIdx]
  | cons b t ih =>
    simp only [withIdx, List.mem_cons, ih]
    constructor
    · rintro (h | ⟨k, rfl, hk⟩)
      · exact ⟨0, by simpa using congrArg Prod.fst h, by
          simpa [List.get?] using (congrArg Prod.snd h).symm⟩
      · exact ⟨k + 1, by omega, by simpa [List.get?] using hk⟩
    · rintro ⟨k, rfl, hk⟩
      cases k with
      | zero => left; simp [List.get?] at hk; simp [hk]
      | succ k => right; exact ⟨k, by omega, by simpa [List.get?] using hk⟩

theorem mem_keysOf_iff_lookup {m : LayoutMap} {v : Value} :
    v ∈ keysOf m ↔ ∃ l, lookupEncs m v = some l := by
  induction m with
  | nil => simp [keysOf, lookupEncs]
  | cons p rest ih =>
    simp only [keysOf, List.map_cons, List.mem_cons, lookupEncs]
    by_cases h : p.1 = v
    · simp [h]
    · simp only [if_neg h]
      constructor
      · rintro (h' | h')
        · exact absurd h'.symm h
        · exact ih.1 h'
      · intro h'; exact Or.inr (ih.2 h')

theorem lookup_mem_encsOf {m : LayoutMap} {v : Value} {l : List Encoding} {e : Encoding}
    (hl : lookupEncs m v = some l) (he : e ∈ l) : e ∈ encsOf m := by
  induction m with
  | nil => simp [lookupEncs] at hl
  | cons p rest ih =>
    simp only [lookupEncs] at hl
    simp only [encsOf, List.map_cons, List.flatten_cons, List.mem_append]
    by_cases h : p.1 = v
    · rw [if_pos h] at hl
      exact Or.inl (by simpa [← Option.some_inj.mp hl] using he)
    · rw [if_neg h] at hl
      exact Or.inr (ih hl)

/-!  insertEnc -/

theorem insertEnc_false {l : List Encoding} {e : Encoding}
    (h : (insertEnc l e).2 = false) : (insertEnc l e).1 = l := by
  by_cases he : e ∈ l <;> simp [insertEnc, he] at h ⊢

theorem insertEnc_length {l : List Encoding} {e : Encoding} :
    (insertEnc l e).1.length = l.length + (if (insertEnc l e).2 then 1 else 0) := by
  by_cases he : e ∈ l <;> simp [insertEnc, he]

theorem insertEnc_subset_left {l : List Encoding} {e : Encoding} :
    l ⊆ (insertEnc l e).1 := by
  by_cases he : e ∈ l <;> simp [insertEnc, he, List.subset_append_left]

theorem mem_insertEnc {l : List Encoding} {e : Encoding} : e ∈ (insertEnc l e).1 := by
  by_cases he : e ∈ l <;> simp [insertEnc, he]

theorem insertEnc_subset_right {l : List Encoding} {e : Encoding} :
    (insertEnc l e).1 ⊆ l ++ [e] := by
  by_cases he : e ∈ l <;> simp [insertEnc, he]

theorem insertEnc_nodup {l : List Encoding} {e : Encoding} (h : l.Nodup) :
    (insertEnc l e).1.Nodup := by
  by_cases he : e ∈ l <;> simp [insertEnc, he]
  · exact h
  · simpa [List.nodup_append, he] using h

theorem insertEnc_ne_nil {l : List Encoding} {e : Encoding} :
    (insertEnc l e).1 ≠ [] := by
  by_cases he : e ∈ l
  · simp only [insertEnc, if_pos he]
    rintro rfl
    simp at he
  · simp [insertEnc, he]

/-!  mapInsert -/

theorem mapInsert_false {m : LayoutMap} {v : Value} {e : Encoding}
    (h : (mapInsert m v e).2 = false) : (mapInsert m v e).1 = m := by
  induction m with
  | nil => simp [mapInsert] at h
  | cons p rest ih =>
    by_cases hp : p.1 = v
    · simp only [mapInsert, if_pos hp] at h ⊢
      rw [insertEnc_false h]
    · simp only [mapInsert, if_neg hp] at h ⊢
      simp [ih h]

theorem keysOf_mapInsert {m : LayoutMap} {v : Value} {e : Encoding} :
    keysOf (mapInsert m v e).1 = if v ∈ keysOf m then keysOf m else keysOf m ++ [v] := by
  induction m with
  | nil => simp [mapInsert, keysOf]
  | cons p rest ih =>
    by_cases hp : p.1 = v
    · simp [mapInsert, if_pos hp, keysOf, hp]
    · simp only [mapInsert, if_neg hp, keysOf, List.map_cons]
      have hne : ¬ p.1 = v := hp
      by_cases hv : v ∈ keysOf rest
      · simp [keysOf] at hv ih
        simp [hv, ih, Ne.symm hne]
      · simp [keysOf] at hv ih
        simp [hv, ih, Ne.symm hne]

theorem mem_keysOf_mapInsert_self {m : LayoutMap} {v : Value} {e : Encoding} :
    v ∈ keysOf (mapInsert m v e).1 := by
  rw [keysOf_mapInsert]
  by_cases hv : v ∈ keysOf m <;> simp [hv]

theorem lookup_mapInsert_self {m : LayoutMap} {v : Value} {e : Encoding} :
    lookupEncs (mapInsert m v e).1 v =
      some (insertEnc (entryOf m v) e).1 := by
  induction m with
  | nil => simp [mapInsert, lookupEncs, entryOf, insertEnc]
  | cons p rest ih =>
    by_cases hp : p.1 = v
    · simp [mapInsert, if_pos hp, lookupEncs, hp, entryOf]
    · simp [mapInsert, if_neg hp, lookupEncs, hp, entryOf] at ih ⊢
      exact ih

theorem lookup_mapInsert_ne {m : LayoutMap} {v w : Value} {e : Encoding}
    (hw : w ≠ v) : lookupEncs (mapInsert m v e).1 w = lookupEncs m w := by
  induction m with
  | nil => simp [mapInsert, lookupEncs, Ne.symm hw]
  | cons p rest ih =>
    by_cases hp : p.1 = v
    · have : ¬ p.1 = w := by rw [hp]; exact Ne.symm hw
      simp [mapInsert, if_pos hp, lookupEncs, this]
    · simp only [mapInsert, if_neg hp, lookupEncs]
      by_cases hpw : p.1 = w
      · simp [hpw]
      · simp [hpw, ih]

theorem totalSize_mapInsert {m : LayoutMap} {v : Value} {e : Encoding} :
    totalSize (mapInsert m v e).1 =
      totalSize m + (if (mapInsert m v e).2 then 1 else 0) := by
  induction m with
  | nil => simp [mapInsert, totalSize]
  | cons p rest ih =>
    by_cases hp : p.1 = v
    · simp only [mapInsert, if_pos hp, totalSize, List.map_cons, List.sum_cons]
      rw [insertEnc_length]
      by_cases hch : (insertEnc p.2 e).2
      · simp only [hch, if_true]
        omega
      · simp only [hch, Bool.false_eq_true, if_false]
        omega
    · simp only [mapInsert, if_neg hp, totalSize, List.map_cons, List.sum_cons] at ih ⊢
      by_cases hch : (mapInsert rest v e).2
      · simp only [hch, if_true] at ih ⊢
        omega
      · simp only [hch, Bool.false_eq_true, if_false] at ih ⊢
        omega

/-- Generic preservation of a per-entry predicate through `mapInsert`. -/
theorem mapInsert_entry_pred {Q : List Encoding → Prop} {m : LayoutMap}
    {v : Value} {e : Encoding}
    (hm : ∀ p ∈ m, Q p.2) (hins : ∀ l, Q l → Q (insertEnc l e).1) (hnew : Q [e]) :
    ∀ p ∈ (mapInsert m v e).1, Q p.2 := by
  induction m with
  | nil => intro p hp; simp [mapInsert] at hp; simp [hp, hnew]
  | cons q rest ih =>
    by_cases hq : q.1 = v
    · intro p hp
      simp only [mapInsert, if_pos hq, List.mem_cons] at hp
      rcases hp with rfl | hp
      · exact hins _ (hm q (by simp))
      · exact hm p (List.mem_cons_of_mem _ hp)
    · intro p hp
      simp only [mapInsert, if_neg hq, List.mem_cons] at hp
      rcases hp with rfl | hp
      · exact hm p (by simp)
      · exact ih (fun r hr => hm r (List.mem_cons_of_mem _ hr)) p hp

/-- Monotonicity of lookups under `mapInsert`. -/
theorem lookup_mapInsert_mono {m : LayoutMap} {v w : Value} {e : Encoding}
    {l : List Encoding} (h : lookupEncs m w = some l) :
    ∃ l', lookupEncs (mapInsert m v e).1 w = some l' ∧ l ⊆ l' := by
  by_cases hw : w = v
  · subst hw
    refine ⟨(insertEnc (entryOf m w) e).1, lookup_mapInsert_self, ?_⟩
    have : entryOf m w = l := by simp [entryOf, h]
    rw [this]
    exact insertEnc_subset_left
  · exact ⟨l, by rw [lookup_mapInsert_ne hw, h], List.Subset.refl l⟩

/-!  Generic fold helpers -/

theorem foldl_rel {α β : Type} (f : β → α → β) (R : β → β → Prop) (l : List α)
    (htrans : ∀ a b c, R a b → R b c → R a c)
    (hstep : ∀ b a, a ∈ l → R b (f b a)) (hrefl : ∀ b, R b b) :
    ∀ b0 : β, R b0 (l.foldl f b0) := by
  induction l with
  | nil => intro b0; simpa using hrefl b0
  | cons a t ih =>
    intro b0
    exact htrans _ _ _ (hstep b0 a (by simp))
      (ih (fun b x hx => hstep b x (by simp [hx])) (f b0 a))

theorem foldl_inv {α β : Type} (f : β → α → β) (Inv : β → Prop) (l : List α)
    (hstep : ∀ b a, a ∈ l → Inv b → Inv (f b a)) :
    ∀ b0 : β, Inv b0 → Inv (l.foldl f b0) := by
  induction l with
  | nil => intro b0 h; simpa using h
  | cons a t ih =>
    intro b0 h
    exact ih (fun b x hx => hstep b x (by simp [hx])) (f b0 a) (hstep b0 a (by simp) h)

/-!  ## Lemmas about setEncoding -/

theorem dstEncodingFor_eq {P : Program} {opId : Nat} {op : Operation}
    {e d : Encoding} (h : dstEncodingFor P opId op e = some d) : d = e := by
  unfold dstEncodingFor inferDstEncoding at h
  by_cases h1 : op.kind = OpKind.convertLayout
  · simp [h1] at h; exact h.symm
  · by_cases h2 : P.refuses opId e <;> simp [h1, h2] at h
    exact h.symm

theorem setEncGo_flag_mono {P : Program} {opId : Nat} {op : Operation} {v : Value} :
    ∀ {info : List Encoding} {m : LayoutMap},
      (setEncGo P opId op v info m true).2 = true := by
  intro info
  induction info with
  | nil => intro m; simp [setEncGo]
  | cons e rest ih =>
    intro m
    cases hd : dstEncodingFor P opId op e <;> simp only [setEncGo, hd]
    · exact ih
    · simpa using ih

theorem setEncGo_mono {P : Program} {opId : Nat} {op : Operation} {v : Value} :
    ∀ {info : List Encoding} {m : LayoutMap} {b : Bool} {w : Value} {l : List Encoding},
      lookupEncs m w = some l →
      ∃ l', lookupEncs (setEncGo P opId op v info m b).1 w = some l' ∧ l ⊆ l' := by
  intro info
  induction info with
  | nil => intro m b w l h; exact ⟨l, by simpa [setEncGo] using h, List.Subset.refl l⟩
  | cons e rest ih =>
    intro m b w l h
    cases hd : dstEncodingFor P opId op e <;> simp only [setEncGo, hd]
    · exact ih h
    · obtain ⟨l1, hl1, hsub1⟩ := lookup_mapInsert_mono h
      obtain ⟨l2, hl2, hsub2⟩ := ih hl1
      exact ⟨l2, hl2, hsub1.trans hsub2⟩

theorem setEncGo_keys_mono {P : Program} {opId : Nat} {op : Operation} {v : Value}
    {info : List Encoding} {m : LayoutMap} {b : Bool} :
    keysOf m ⊆ keysOf (setEncGo P opId op v info m b).1 := by
  intro w hw
  obtain ⟨l, hl⟩ := mem_keysOf_iff_lookup.1 hw
  obtain ⟨l', hl', _⟩ := @setEncGo_mono P opId op v info m b w l hl
  exact mem_keysOf_iff_lookup.2 ⟨l', hl'⟩

theorem setEncGo_false {P : Program} {opId : Nat} {op : Operation} {v : Value} :
    ∀ {info : List Encoding} {m : LayoutMap},
      (setEncGo P opId op v info m false).2 = false →
      (setEncGo P opId op v info m false).1 = m := by
  intro info
  induction info with
  | nil => intro m _; simp [setEncGo]
  | cons e rest ih =>
    intro m h
    cases hd : dstEncodingFor P opId op e with
    | none =>
      simp only [setEncGo, hd] at h ⊢
      exact ih h
    | some d =>
      simp only [setEncGo, hd] at h ⊢
      have hch : (mapInsert m v d).2 = false := by
        by_contra hc
        rw [Bool.not_eq_false] at hc
        rw [hc] at h
        simp only [Bool.false_or] at h
        exact absurd h (by simp [setEncGo_flag_mono])
      rw [hch] at h ⊢
      simp only [Bool.false_or] at h ⊢
      rw [mapInsert_false hch] at h ⊢
      exact ih h

theorem setEncGo_size {P : Program} {opId : Nat} {op : Operation} {v : Value} :
    ∀ {info : List Encoding} {m : LayoutMap} {b : Bool},
      totalSize m + (setEncGo P opId op v info m b).2.toNat ≤
        totalSize (setEncGo P opId op v info m b).1 + b.toNat ∧
      totalSize m ≤ totalSize (setEncGo P opId op v info m b).1 := by
  intro info
  induction info with
  | nil => intro m b; simp [setEncGo]
  | cons e rest ih =>
    intro m b
    cases hd : dstEncodingFor P opId op e with
    | none =>
      simp only [setEncGo, hd]
      exact ih
    | some d =>
      simp only [setEncGo, hd]
      have hts := totalSize_mapInsert (m := m) (v := v) (e := d)
      obtain ⟨ih1, ih2⟩ := ih (m := (mapInsert m v d).1) (b := b || (mapInsert m v d).2)
      have h1 : (b || (mapInsert m v d).2).toNat ≤ b.toNat + (mapInsert m v d).2.toNat := by
        cases b <;> cases (mapInsert m v d).2 <;> simp
      have h2 : totalSize (mapInsert m v d).1 = totalSize m + (mapInsert m v d).2.toNat := by
        rw [hts]; cases (mapInsert m v d).2 <;> simp
      exact ⟨by omega, by omega⟩

theorem setEncGo_keys_sub {P : Program} {opId : Nat} {op : Operation} {v : Value} :
    ∀ {info : List Encoding} {m : LayoutMap} {b : Bool},
      keysOf (setEncGo P opId op v info m b).1 ⊆ keysOf m ++ [v] := by
  intro info
  induction info with
  | nil => intro m b; simp [setEncGo, List.subset_append_left]
  | cons e rest ih =>
    intro m b
    cases hd : dstEncodingFor P opId op e <;> simp only [setEncGo, hd]
    · exact ih
    · refine ih.trans ?_
      intro w hw
      rcases List.mem_append.1 hw with hw | hw
      · rw [keysOf_mapInsert] at hw
        by_cases hv : v ∈ keysOf m
        · rw [if_pos hv] at hw; exact List.mem_append_left _ hw
        · rw [if_neg hv] at hw; exact hw
      · exact List.mem_append_right _ hw

theorem setEncGo_key_self {P : Program} {opId : Nat} {op : Operation} {v : Value} :
    ∀ {info : List Encoding} {m : LayoutMap} {b : Bool},
      (setEncGo P opId op v info m b).2 = true →
      b = true ∨ v ∈ keysOf (setEncGo P opId op v info m b).1 := by
  intro info
  induction info with
  | nil => intro m b h; simp [setEncGo] at h; exact Or.inl h
  | cons e rest ih =>
    intro m b h
    cases hd : dstEncodingFor P opId op e with
    | none =>
      simp only [setEncGo, hd] at h ⊢
      exact ih h
    | some d =>
      simp only [setEncGo, hd] at h ⊢
      rcases ih h with hb | hk
      · cases hbb : b
        · right
          exact setEncGo_keys_mono (mem_keysOf_mapInsert_self (m := m) (v := v) (e := d))
        · exact Or.inl (by trivial)
      · exact Or.inr hk

theorem setEncGo_entry_pred {Q : List Encoding → Prop} {P : Program} {opId : Nat}
    {op : Operation} {v : Value} :
    ∀ {info : List Encoding} {m : LayoutMap} {b : Bool},
      (∀ p ∈ m, Q p.2) →
      (∀ l e, Q l → e ∈ info → Q (insertEnc l e).1) →
      (∀ e ∈ info, Q [e]) →
      ∀ p ∈ (setEncGo P opId op v info m b).1, Q p.2 := by
  intro info
  induction info with
  | nil => intro m b hm _ _ p hp; exact hm p (by simpa [setEncGo] using hp)
  | cons e rest ih =>
    intro m b hm hins hnew p hp
    cases hd : dstEncodingFor P opId op e <;> simp only [setEncGo, hd] at hp
    · exact ih hm (fun l x hl hx => hins l x hl (by simp [hx]))
        (fun x hx => hnew x (by simp [hx])) p hp
    · have hde := dstEncodingFor_eq hd
      subst hde
      refine ih ?_ (fun l x hl hx => hins l x hl (by simp [hx]))
        (fun x hx => hnew x (by simp [hx])) p hp
      exact mapInsert_entry_pred hm (fun l hl => hins l _ hl (by simp))
        (hnew _ (by simp))

theorem setEncGo_keys_nodup {P : Program} {opId : Nat} {op : Operation} {v : Value} :
    ∀ {info : List Encoding} {m : LayoutMap} {b : Bool},
      (keysOf m).Nodup → (keysOf (setEncGo P opId op v info m b).1).Nodup := by
  intro info
  induction info with
  | nil => intro m b h; simpa [setEncGo] using h
  | cons e rest ih =>
    intro m b h
    cases hd : dstEncodingFor P opId op e <;> simp only [setEncGo, hd]
    · exact ih h
    · refine ih ?_
      rw [keysOf_mapInsert]
      by_cases hv : v ∈ keysOf m
      · simpa [hv] using h
      · rw [if_neg hv]
        exact h.append (List.nodup_singleton v)
          (fun a ha hav => hv ((List.mem_singleton.1 hav) ▸ ha))

theorem setEncGo_insert_all {P : Program} {opId : Nat} {op : Operation} {v : Value} :
    ∀ {info : List Encoding} {m : LayoutMap} {b : Bool},
      (∀ e ∈ info, dstEncodingFor P opId op e = some e) →
      ∀ e ∈ info, ∃ l, lookupEncs (setEncGo P opId op v info m b).1 v = some l ∧ e ∈ l := by
  intro info
  induction info with
  | nil => intro m b _ e he; simp at he
  | cons e0 rest ih =>
    intro m b hok e he
    have hd : dstEncodingFor P opId op e0 = some e0 := hok e0 (by simp)
    simp only [setEncGo, hd]
    rcases List.mem_cons.1 he with rfl | he
    · have hself : lookupEncs (mapInsert m v e).1 v = some (insertEnc (entryOf m v) e).1 :=
        lookup_mapInsert_self
      obtain ⟨l', hl', hsub⟩ :=
        @setEncGo_mono P opId op v rest (mapInsert m v e).1
          (b || (mapInsert m v e).2) v _ hself
      exact ⟨l', hl', hsub mem_insertEnc⟩
    · exact ih (fun x hx => hok x (by simp [hx])) e he

theorem setEncodingValue_mono {P : Program} {opId : Nat} {op : Operation}
    {info : List Encoding} {m : LayoutMap} {v w : Value} {l : List Encoding}
    (h : lookupEncs m w = some l) :
    ∃ l', lookupEncs (setEncodingValue P opId op info m v).1 w = some l' ∧ l ⊆ l' := by
  unfold setEncodingValue
  by_cases ht : (P.typeOf v).isTensor
  · simp only [if_pos ht]
    exact setEncGo_mono h
  · simp only [ht, Bool.false_eq_true, if_false]
    exact ⟨l, h, List.Subset.refl l⟩

theorem setEncodingValue_keys_mono {P : Program} {opId : Nat} {op : Operation}
    {info : List Encoding} {m : LayoutMap} {v : Value} :
    keysOf m ⊆ keysOf (setEncodingValue P opId op info m v).1 := by
  intro w hw
  obtain ⟨l, hl⟩ := mem_keysOf_iff_lookup.1 hw
  obtain ⟨l', hl', _⟩ := @setEncodingValue_mono P opId op info m v w l hl
  exact mem_keysOf_iff_lookup.2 ⟨l', hl'⟩

theorem setEncodingValue_size {P : Program} {opId : Nat} {op : Operation}
    {info : List Encoding} {m : LayoutMap} {v : Value} :
    totalSize m + (setEncodingValue P opId op info m v).2.toNat ≤
      totalSize (setEncodingValue P opId op info m v).1 ∧
    totalSize m ≤ totalSize (setEncodingValue P opId op info m v).1 := by
  unfold setEncodingValue
  by_cases ht : (P.typeOf v).isTensor
  · simp only [if_pos ht]
    have h := @setEncGo_size P opId op v info m false
    simpa using h
  · simp [ht]

theorem setEncodingValue_keys_sub {P : Program} {opId : Nat} {op : Operation}
    {info : List Encoding} {m : LayoutMap} {v : Value} :
    keysOf (setEncodingValue P opId op info m v).1 ⊆ keysOf m ++ [v] := by
  unfold setEncodingValue
  by_cases ht : (P.typeOf v).isTensor
  · simp only [if_pos ht]
    exact setEncGo_keys_sub
  · simp only [ht, Bool.false_eq_true, if_false]
    exact List.subset_append_left _ _

theorem setEncodingValue_key_self {P : Program} {opId : Nat} {op : Operation}
    {info : List Encoding} {m : LayoutMap} {v : Value}
    (h : (setEncodingValue P opId op info m v).2 = true) :
    v ∈ keysOf (setEncodingValue P opId op info m v).1 := by
  unfold setEncodingValue at h ⊢
  by_cases ht : (P.typeOf v).isTensor
  · simp only [if_pos ht] at h ⊢
    rcases setEncGo_key_self h with hb | hk
    · simp at hb
    · exact hk
  · simp [ht] at h

theorem setEncodingValue_entry_pred {Q : List Encoding → Prop} {P : Program}
    {opId : Nat} {op : Operation} {info : List Encoding} {m : LayoutMap} {v : Value}
    (hm : ∀ p ∈ m, Q p.2)
    (hins : ∀ l e, Q l → e ∈ info → Q (insertEnc l e).1)
    (hnew : ∀ e ∈ info, Q [e]) :
    ∀ p ∈ (setEncodingValue P opId op info m v).1, Q p.2 := by
  unfold setEncodingValue
  by_cases ht : (P.typeOf v).isTensor
  · simp only [if_pos ht]
    exact setEncGo_entry_pred hm hins hnew
  · simp only [ht, Bool.false_eq_true, if_false]
    exact hm

theorem setEncodingValue_keys_nodup {P : Program} {opId : Nat} {op : Operation}
    {info : List Encoding} {m : LayoutMap} {v : Value}
    (h : (keysOf m).Nodup) : (keysOf (setEncodingValue P opId op info m v).1).Nodup := by
  unfold setEncodingValue
  by_cases ht : (P.typeOf v).isTensor
  · simp only [if_pos ht]
    exact setEncGo_keys_nodup h
  · simpa [ht] using h

/-!  setEncoding (the fold over the target values) -/

theorem setEncoding_mono {P : Program} {opId : Nat} {op : Operation}
    {info : List Encoding} {values : List Value} {st : LayoutMap × List Value}
    {w : Value} {l : List Encoding} (h : lookupEncs st.1 w = some l) :
    ∃ l', lookupEncs (setEncoding P opId op info values st).1 w = some l' ∧ l ⊆ l' := by
  have := foldl_rel
    (fun acc v =>
      ((setEncodingValue P opId op info acc.1 v).1,
       if (setEncodingValue P opId op info acc.1 v).2 then acc.2 ++ [v] else acc.2))
    (fun x y => ∀ w l, lookupEncs x.1 w = some l →
      ∃ l', lookupEncs y.1 w = some l' ∧ l ⊆ l') values
    (fun a b c hab hbc w l hl => by
      obtain ⟨l1, hl1, hs1⟩ := hab w l hl
      obtain ⟨l2, hl2, hs2⟩ := hbc w l1 hl1
      exact ⟨l2, hl2, hs1.trans hs2⟩)
    (fun b a _ w l hl => setEncodingValue_mono hl)
    (fun b w l hl => ⟨l, hl, List.Subset.refl l⟩) st
  exact this w l h

theorem setEncoding_keys_mono {P : Program} {opId : Nat} {op : Operation}
    {info : List Encoding} {values : List Value} {st : LayoutMap × List Value} :
    keysOf st.1 ⊆ keysOf (setEncoding P opId op info values st).1 := by
  intro w hw
  obtain ⟨l, hl⟩ := mem_keysOf_iff_lookup.1 hw
  obtain ⟨l', hl', _⟩ := @setEncoding_mono P opId op info values st w l hl
  exact mem_keysOf_iff_lookup.2 ⟨l', hl'⟩

theorem setEncoding_progress {P : Program} {opId : Nat} {op : Operation}
    {info : List Encoding} {values : List Value} {st : LayoutMap × List Value} :
    totalSize st.1 + (setEncoding P opId op info values st).2.length ≤
      totalSize (setEncoding P opId op info values st).1 + st.2.length ∧
    totalSize st.1 ≤ totalSize (setEncoding P opId op info values st).1 := by
  have := foldl_rel
    (fun acc v =>
      ((setEncodingValue P opId op info acc.1 v).1,
       if (setEncodingValue P opId op info acc.1 v).2 then acc.2 ++ [v] else acc.2))
    (fun x y => totalSize x.1 + y.2.length ≤ totalSize y.1 + x.2.length ∧
      totalSize x.1 ≤ totalSize y.1) values
    (fun a b c hab hbc => ⟨by omega, by omega⟩)
    (fun b a _ => by
      obtain ⟨h1, h2⟩ := @setEncodingValue_size P opId op info b.1 a
      by_cases hfl : (setEncodingValue P opId op info b.1 a).2
      · rw [hfl] at h1
        simp only [hfl, if_true]
        constructor
        · simp only [List.length_append, List.length_cons, List.length_nil]
          simp only [Bool.toNat_true] at h1
          omega
        · exact h2
      · have hfl' : (setEncodingValue P opId op info b.1 a).2 = false := by
          simpa using hfl
        simp only [hfl', Bool.false_eq_true, if_false]
        exact ⟨by omega, h2⟩)
    (fun b => ⟨le_refl _, le_refl _⟩) st
  exact this

theorem setEncoding_changed_sub {P : Program} {opId : Nat} {op : Operation}
    {info : List Encoding} {values : List Value} {st : LayoutMap × List Value}
    (h : ∀ w ∈ st.2, w ∈ keysOf st.1) :
    ∀ w ∈ (setEncoding P opId op info values st).2,
      w ∈ keysOf (setEncoding P opId op info values st).1 := by
  refine foldl_inv _ (fun acc => ∀ w ∈ acc.2, w ∈ keysOf acc.1) values ?_ st h
  intro b a _ hb w hw
  by_cases hfl : (setEncodingValue P opId op info b.1 a).2
  · simp only [hfl, if_true] at hw
    rcases List.mem_append.1 hw with hw | hw
    · exact setEncodingValue_keys_mono (hb w hw)
    · rw [List.mem_singleton.1 hw]
      exact setEncodingValue_key_self hfl
  · simp only [hfl, if_false] at hw
    exact setEncodingValue_keys_mono (hb w hw)

theorem setEncoding_keys_bound {P : Program} {opId : Nat} {op : Operation}
    {info : List Encoding} {values : List Value} {st : LayoutMap × List Value}
    {K : List Value} (hK : keysOf st.1 ⊆ K) (hvals : ∀ v ∈ values, v ∈ K) :
    keysOf (setEncoding P opId op info values st).1 ⊆ K := by
  refine foldl_inv _ (fun acc => keysOf acc.1 ⊆ K) values ?_ st hK
  intro b a ha hb
  refine (setEncodingValue_keys_sub).trans ?_
  intro w hw
  rcases List.mem_append.1 hw with hw | hw
  · exact hb hw
  · rw [List.mem_singleton.1 hw]; exact hvals a ha

theorem setEncoding_entry_pred {Q : List Encoding → Prop} {P : Program} {opId : Nat}
    {op : Operation} {info : List Encoding} {values : List Value}
    {st : LayoutMap × List Value}
    (hm : ∀ p ∈ st.1, Q p.2)
    (hins : ∀ l e, Q l → e ∈ info → Q (insertEnc l e).1)
    (hnew : ∀ e ∈ info, Q [e]) :
    ∀ p ∈ (setEncoding P opId op info values st).1, Q p.2 := by
  refine foldl_inv _ (fun acc => ∀ p ∈ acc.1, Q p.2) values ?_ st hm
  intro b a _ hb
  exact setEncodingValue_entry_pred hb hins hnew

theorem setEncoding_keys_nodup {P : Program} {opId : Nat} {op : Operation}
    {info : List Encoding} {values : List Value} {st : LayoutMap × List Value}
    (h : (keysOf st.1).Nodup) : (keysOf (setEncoding P opId op info values st).1).Nodup := by
  refine foldl_inv _ (fun acc => (keysOf acc.1).Nodup) values ?_ st h
  intro b a _ hb
  exact setEncodingValue_keys_nodup hb

/-!  propagateUse: every branch is either the identity or one setEncoding
call whose target values all belong to the program. -/

theorem mem_allValues_of_valueSet {P : Program} {op : Operation} {w : Value}
    (hop : op ∈ P.ops) (hw : w ∈ op.valueSet) : w ∈ P.allValues := by
  unfold Program.allValues
  refine List.mem_append_right _ ?_
  rw [List.mem_flatten]
  exact ⟨op.valueSet, List.mem_map_of_mem _ hop, hw⟩

theorem mem_toList_get? {α : Type} {l : List α} {k : Nat} {w : α}
    (h : w ∈ (l.get? k).toList) : w ∈ l := by
  cases hg : l.get? k with
  | none => rw [hg] at h; simp at h
  | some a =>
    rw [hg] at h
    rw [Option.toList_some, List.mem_singleton] at h
    rw [h]
    exact List.get?_mem hg

theorem valueSet_parts {op : Operation} {w : Value}
    (h : w ∈ op.operands ∨ w ∈ op.results ∨ w ∈ op.iterArgs ∨
      w ∈ op.beforeArgs ∨ w ∈ op.afterArgs) : w ∈ op.valueSet := by
  simp only [Operation.valueSet, List.mem_append]
  tauto

theorem propagateUse_cases (P : Program) (info : List Encoding)
    (acc : LayoutMap × List Value) (use : Nat × Nat) :
    propagateUse P info acc use = acc ∨
    ∃ opId op values, (∀ w ∈ values, w ∈ P.allValues) ∧
      propagateUse P info acc use = setEncoding P opId op info values acc := by
  unfold propagateUse
  cases huser : P.ops.get? use.1 with
  | none => exact Or.inl (by trivial)
  | some user =>
    have hmem : user ∈ P.ops := List.get?_mem huser
    cases hk : user.kind <;> simp only [hk]
    case forOp =>
      by_cases hlt : use.2 < 3
      · simp only [if_pos hlt]
        exact Or.inl (by trivial)
      · simp only [if_neg hlt]
        refine Or.inr ⟨use.1, user, _, ?_, rfl⟩
        intro w hw
        rcases List.mem_append.1 hw with hw | hw
        · exact mem_allValues_of_valueSet hmem
            (valueSet_parts (Or.inr (Or.inr (Or.inl (mem_toList_get? hw)))))
        · exact mem_allValues_of_valueSet hmem
            (valueSet_parts (Or.inr (Or.inl (mem_toList_get? hw))))
    case whileOp =>
      refine Or.inr ⟨use.1, user, _, ?_, rfl⟩
      intro w hw
      exact mem_allValues_of_valueSet hmem
        (valueSet_parts (Or.inr (Or.inr (Or.inr (Or.inl (mem_toList_get? hw))))))
    case yieldOp =>
      cases hpar : user.parent.bind fun pid => P.ops.get? pid with
      | none => exact Or.inl (by trivial)
      | some parentOp =>
        have hparMem : parentOp ∈ P.ops := by
          rcases Option.bind_eq_some.1 hpar with ⟨pid, _, hpid⟩
          exact List.get?_mem hpid
        by_cases hcond : parentOp.kind = OpKind.forOp ∨ parentOp.kind = OpKind.ifOp ∨
            parentOp.kind = OpKind.whileOp
        · simp only [if_pos hcond]
          refine Or.inr ⟨use.1, user, _, ?_, rfl⟩
          intro w hw
          rcases List.mem_append.1 hw with hw | hw
          · rcases List.mem_append.1 hw with hw | hw
            · by_cases hc1 : parentOp.kind = OpKind.forOp ∨ parentOp.kind = OpKind.ifOp
              · rw [if_pos hc1] at hw
                exact mem_allValues_of_valueSet hparMem
                  (valueSet_parts (Or.inr (Or.inl (mem_toList_get? hw))))
              · rw [if_neg hc1] at hw
                simp at hw
            · by_cases hc2 : parentOp.kind = OpKind.forOp
              · rw [if_pos hc2] at hw
                exact mem_allValues_of_valueSet hparMem
                  (valueSet_parts (Or.inr (Or.inr (Or.inl (mem_toList_get? hw)))))
              · rw [if_neg hc2] at hw
                simp at hw
          · by_cases hc3 : parentOp.kind = OpKind.whileOp
            · rw [if_pos hc3] at hw
              rcases List.mem_append.1 hw with hw | hw
              · exact mem_allValues_of_valueSet hparMem
                  (valueSet_parts (Or.inr (Or.inr (Or.inr (Or.inl (mem_toList_get? hw))))))
              · exact mem_allValues_of_valueSet hparMem
                  (valueSet_parts (Or.inl (mem_toList_get? hw)))
            · rw [if_neg hc3] at hw
              simp at hw
        · simp only [if_neg hcond]
          exact Or.inl (by trivial)
    case conditionOp =>
      cases hpar : user.parent.bind fun pid => P.ops.get? pid with
      | none => exact Or.inl (by trivial)
      | some parentOp =>
        have hparMem : parentOp ∈ P.ops := by
          rcases Option.bind_eq_some.1 hpar with ⟨pid, _, hpid⟩
          exact List.get?_mem hpid
        by_cases h0 : use.2 = 0
        · simp only [if_pos h0]
          exact Or.inl (by trivial)
        · simp only [if_neg h0]
          refine Or.inr ⟨use.1, user, _, ?_, rfl⟩
          intro w hw
          rcases List.mem_append.1 hw with hw | hw
          · exact mem_allValues_of_valueSet hparMem
              (valueSet_parts (Or.inr (Or.inr (Or.inr (Or.inr (mem_toList_get? hw))))))
          · exact mem_allValues_of_valueSet hparMem
              (valueSet_parts (Or.inr (Or.inl (mem_toList_get? hw))))
    all_goals
      simp only [OpKind.isPropagatedResultKind, Bool.or_true, Bool.or_false]
      first
      | · refine Or.inr ⟨use.1, user, user.results, ?_, rfl⟩
          intro w hw
          exact mem_allValues_of_valueSet hmem (valueSet_parts (Or.inr (Or.inl hw)))
      | · by_cases htr : user.traitElt
          · rw [if_pos (by simp [htr])]
            refine Or.inr ⟨use.1, user, user.results, ?_, rfl⟩
            intro w hw
            exact mem_allValues_of_valueSet hmem (valueSet_parts (Or.inr (Or.inl hw)))
          · rw [if_neg (by simp [htr])]
            exact Or.inl (by trivial)

/-!  propagateToUsers -/

theorem propagateToUsers_mono {P : Program} {v : Value} {info : List Encoding}
    {m : LayoutMap} {w : Value} {l : List Encoding} (h : lookupEncs m w = some l) :
    ∃ l', lookupEncs (propagateToUsers P v info m).1 w = some l' ∧ l ⊆ l' := by
  unfold propagateToUsers
  have := foldl_rel (propagateUse P info)
    (fun x y => ∀ w l, lookupEncs x.1 w = some l →
      ∃ l', lookupEncs y.1 w = some l' ∧ l ⊆ l') (P.usesOf v)
    (fun a b c hab hbc w l hl => by
      obtain ⟨l1, hl1, hs1⟩ := hab w l hl
      obtain ⟨l2, hl2, hs2⟩ := hbc w l1 hl1
      exact ⟨l2, hl2, hs1.trans hs2⟩)
    (fun b a _ w l hl => by
      rcases propagateUse_cases P info b a with heq | ⟨opId, op, values, _, heq⟩
      · rw [heq]; exact ⟨l, hl, List.Subset.refl l⟩
      · rw [heq]; exact setEncoding_mono hl)
    (fun b w l hl => ⟨l, hl, List.Subset.refl l⟩) (m, [])
  exact this w l h

theorem propagateToUsers_keys_mono {P : Program} {v : Value} {info : List Encoding}
    {m : LayoutMap} : keysOf m ⊆ keysOf (propagateToUsers P v info m).1 := by
  intro w hw
  obtain ⟨l, hl⟩ := mem_keysOf_iff_lookup.1 hw
  obtain ⟨l', hl', _⟩ := @propagateToUsers_mono P v info m w l hl
  exact mem_keysOf_iff_lookup.2 ⟨l', hl'⟩

theorem propagateToUsers_progress {P : Program} {v : Value} {info : List Encoding}
    {m : LayoutMap} :
    totalSize m + (propagateToUsers P v info m).2.length ≤
      totalSize (propagateToUsers P v info m).1 ∧
    totalSize m ≤ totalSize (propagateToUsers P v info m).1 := by
  unfold propagateToUsers
  have := foldl_rel (propagateUse P info)
    (fun x y => totalSize x.1 + y.2.length ≤ totalSize y.1 + x.2.length ∧
      totalSize x.1 ≤ totalSize y.1) (P.usesOf v)
    (fun a b c hab hbc => ⟨by omega, by omega⟩)
    (fun b a _ => by
      rcases propagateUse_cases P info b a with heq | ⟨opId, op, values, _, heq⟩
      · rw [heq]; exact ⟨le_refl _, le_refl _⟩
      · rw [heq]; exact setEncoding_progress)
    (fun b => ⟨le_refl _, le_refl _⟩) (m, [])
  obtain ⟨h1, h2⟩ := this
  simpa using ⟨h1, h2⟩

theorem propagateToUsers_changed_sub {P : Program} {v : Value} {info : List Encoding}
    {m : LayoutMap} :
    ∀ w ∈ (propagateToUsers P v info m).2, w ∈ keysOf (propagateToUsers P v info m).1 := by
  unfold propagateToUsers
  refine foldl_inv (propagateUse P info) (fun acc => ∀ w ∈ acc.2, w ∈ keysOf acc.1)
    (P.usesOf v) ?_ (m, []) (by simp)
  intro b a _ hb
  rcases propagateUse_cases P info b a with heq | ⟨opId, op, values, _, heq⟩
  · rw [heq]; exact hb
  · rw [heq]; exact setEncoding_changed_sub hb

theorem propagateToUsers_keys_bound {P : Program} {v : Value} {info : List Encoding}
    {m : LayoutMap} (h : keysOf m ⊆ P.allValues) :
    keysOf (propagateToUsers P v info m).1 ⊆ P.allValues := by
  unfold propagateToUsers
  refine foldl_inv (propagateUse P info) (fun acc => keysOf acc.1 ⊆ P.allValues)
    (P.usesOf v) ?_ (m, []) h
  intro b a _ hb
  rcases propagateUse_cases P info b a with heq | ⟨opId, op, values, hvals, heq⟩
  · rw [heq]; exact hb
  · rw [heq]; exact setEncoding_keys_bound hb hvals

theorem propagateToUsers_entry_pred {Q : List Encoding → Prop} {P : Program} {v : Value}
    {info : List Encoding} {m : LayoutMap}
    (hm : ∀ p ∈ m, Q p.2)
    (hins : ∀ l e, Q l → e ∈ info → Q (insertEnc l e).1)
    (hnew : ∀ e ∈ info, Q [e]) :
    ∀ p ∈ (propagateToUsers P v info m).1, Q p.2 := by
  unfold propagateToUsers
  refine foldl_inv (propagateUse P info) (fun acc => ∀ p ∈ acc.1, Q p.2)
    (P.usesOf v) ?_ (m, []) hm
  intro b a _ hb
  rcases propagateUse_cases P info b a with heq | ⟨opId, op, values, _, heq⟩
  · rw [heq]; exact hb
  · rw [heq]; exact setEncoding_entry_pred hb hins hnew

theorem propagateToUsers_keys_nodup {P : Program} {v : Value} {info : List Encoding}
    {m : LayoutMap} (h : (keysOf m).Nodup) :
    (keysOf (propagateToUsers P v info m).1).Nodup := by
  unfold propagateToUsers
  refine foldl_inv (propagateUse P info) (fun acc => (keysOf acc.1).Nodup)
    (P.usesOf v) ?_ (m, []) h
  intro b a _ hb
  rcases propagateUse_cases P info b a with heq | ⟨opId, op, values, _, heq⟩
  · rw [heq]; exact hb
  · rw [heq]; exact setEncoding_keys_nodup hb

/-!  ## The worklist invariant and termination measure -/

theorem lookup_mem {m : LayoutMap} {v : Value} {l : List Encoding}
    (h : lookupEncs m v = some l) : (v, l) ∈ m := by
  induction m with
  | nil => simp [lookupEncs] at h
  | cons p rest ih =>
    simp only [lookupEncs] at h
    by_cases hp : p.1 = v
    · rw [if_pos hp] at h
      have : p = (v, l) := by
        cases p; simp at hp h ⊢; exact ⟨hp, h⟩
      rw [← this]; simp
    · rw [if_neg hp] at h
      exact List.mem_cons_of_mem _ (ih h)

/-- Invariant carried by the propagation worklist: every entry is a
nonempty duplicate-free list of encodings drawn from the pool `E0`; the
keys are duplicate-free program values; every queued value has an entry. -/
structure PInv (P : Program) (E0 : List Encoding) (s : PState) : Prop where
  entNonempty : ∀ p ∈ s.layouts, p.2 ≠ []
  entNodup : ∀ p ∈ s.layouts, p.2.Nodup
  entSub : ∀ p ∈ s.layouts, p.2 ⊆ E0
  keySub : keysOf s.layouts ⊆ P.allValues
  keyNodup : (keysOf s.layouts).Nodup
  queueSub : ∀ v ∈ s.queue, v ∈ keysOf s.layouts

theorem propStep_empty {P : Program} {s : PState} (h : s.queue = []) :
    propStep P s = s := by
  unfold propStep
  rw [h]
  rfl

theorem propStep_inv {P : Program} {E0 : List Encoding} {s : PState}
    (h : PInv P E0 s) : PInv P E0 (propStep P s) := by
  cases hq : s.queue.getLast? with
  | none =>
    have : s.queue = [] := List.getLast?_eq_none_iff.1 hq
    rw [propStep_empty this]
    exact h
  | some v =>
    have hvq : v ∈ s.queue := List.mem_of_mem_getLast? (by rw [hq]; rfl)
    obtain ⟨info, hinfo⟩ := mem_keysOf_iff_lookup.1 (h.queueSub v hvq)
    have hstep : propStep P s =
        { layouts := (propagateToUsers P v info s.layouts).1,
          queue := s.queue.dropLast ++ (propagateToUsers P v info s.layouts).2 } := by
      unfold propStep
      rw [hq]
      simp only [hinfo]
    have hInfoSub : info ⊆ E0 := h.entSub _ (lookup_mem hinfo)
    rw [hstep]
    refine ⟨?_, ?_, ?_, ?_, ?_, ?_⟩
    · exact propagateToUsers_entry_pred (Q := fun l => l ≠ []) h.entNonempty
        (fun l e _ _ => insertEnc_ne_nil) (fun e _ => by simp)
    · exact propagateToUsers_entry_pred (Q := fun l => l.Nodup) h.entNodup
        (fun l e hl _ => insertEnc_nodup hl) (fun e _ => List.nodup_singleton e)
    · refine propagateToUsers_entry_pred (Q := fun l => l ⊆ E0) h.entSub ?_ ?_
      · intro l e hl he
        refine insertEnc_subset_right.trans ?_
        intro x hx
        rcases List.mem_append.1 hx with hx | hx
        · exact hl hx
        · rw [List.mem_singleton.1 hx]; exact hInfoSub he
      · intro e he x hx
        rw [List.mem_singleton.1 hx]; exact hInfoSub he
    · exact propagateToUsers_keys_bound h.keySub
    · exact propagateToUsers_keys_nodup h.keyNodup
    · intro w hw
      rcases List.mem_append.1 hw with hw | hw
      · exact propagateToUsers_keys_mono (h.queueSub w (List.dropLast_subset _ hw))
      · exact propagateToUsers_changed_sub w hw

/-- A duplicate-free list contained in another list is no longer than the
other list's deduplication. -/
theorem nodup_subset_length {α : Type} [DecidableEq α] {l u : List α}
    (hn : l.Nodup) (hs : l ⊆ u) : l.length ≤ u.dedup.length := by
  have h1 : l.toFinset.card = l.length := List.toFinset_card_of_nodup hn
  have h2 : l.toFinset ⊆ u.toFinset := by
    intro x hx
    rw [List.mem_toFinset] at hx ⊢
    exact hs hx
  have h3 : u.toFinset.card = u.dedup.length := List.card_toFinset u
  have := Finset.card_le_card h2
  omega

theorem totalSize_le_of_entries {E0 : List Encoding} {m : LayoutMap}
    (hn : ∀ p ∈ m, p.2.Nodup) (hs : ∀ p ∈ m, p.2 ⊆ E0) :
    totalSize m ≤ E0.dedup.length * m.length := by
  induction m with
  | nil => simp [totalSize]
  | cons p rest ih =>
    simp only [totalSize, List.map_cons, List.sum_cons, List.length_cons]
    have h1 : p.2.length ≤ E0.dedup.length :=
      nodup_subset_length (hn p (by simp)) (hs p (by simp))
    have h2 : totalSize rest ≤ E0.dedup.length * rest.length :=
      ih (fun q hq => hn q (List.mem_cons_of_mem _ hq))
        (fun q hq => hs q (List.mem_cons_of_mem _ hq))
    simp only [totalSize] at h2
    calc p.2.length + (rest.map fun q => q.2.length).sum
        ≤ E0.dedup.length + E0.dedup.length * rest.length := by omega
      _ = E0.dedup.length * (rest.length + 1) := by ring

/-- The product bound on the total number of stored candidates. -/
def sizeBound (P : Program) (E0 : List Encoding) : Nat :=
  E0.dedup.length * P.allValues.dedup.length

theorem totalSize_bound {P : Program} {E0 : List Encoding} {s : PState}
    (h : PInv P E0 s) : totalSize s.layouts ≤ sizeBound P E0 := by
  have h1 : totalSize s.layouts ≤ E0.dedup.length * s.layouts.length :=
    totalSize_le_of_entries h.entNodup h.entSub
  have h2 : s.layouts.length ≤ P.allValues.dedup.length := by
    have : (keysOf s.layouts).length = s.layouts.length := by
      simp [keysOf]
    rw [← this]
    exact nodup_subset_length h.keyNodup h.keySub
  calc totalSize s.layouts ≤ E0.dedup.length * s.layouts.length := h1
    _ ≤ E0.dedup.length * P.allValues.dedup.length :=
        Nat.mul_le_mul_left _ h2
    _ = sizeBound P E0 := rfl

/-- Decreasing measure of the worklist loop: queue length plus twice the
remaining insertion slack. -/
def measureOf (P : Program) (E0 : List Encoding) (s : PState) : Nat :=
  s.queue.length + 2 * (sizeBound P E0 - totalSize s.layouts)

theorem propStep_measure {P : Program} {E0 : List Encoding} {s : PState}
    (h : PInv P E0 s) (hne : s.queue ≠ []) :
    measureOf P E0 (propStep P s) < measureOf P E0 s := by
  cases hq : s.queue.getLast? with
  | none => exact absurd (List.getLast?_eq_none_iff.1 hq) hne
  | some v =>
    have hvq : v ∈ s.queue := List.mem_of_mem_getLast? (by rw [hq]; rfl)
    obtain ⟨info, hinfo⟩ := mem_keysOf_iff_lookup.1 (h.queueSub v hvq)
    have hstep : propStep P s =
        { layouts := (propagateToUsers P v info s.layouts).1,
          queue := s.queue.dropLast ++ (propagateToUsers P v info s.layouts).2 } := by
      unfold propStep
      rw [hq]
      simp only [hinfo]
    obtain ⟨hp1, hp2⟩ := @propagateToUsers_progress P v info s.layouts
    have hbound : totalSize (propagateToUsers P v info s.layouts).1 ≤ sizeBound P E0 := by
      have := propStep_inv h
      rw [hstep] at this
      exact totalSize_bound this
    have hlen : s.queue.dropLast.length = s.queue.length - 1 := List.length_dropLast _
    have hpos : 0 < s.queue.length := List.length_pos.2 hne
    rw [hstep]
    unfold measureOf
    simp only [List.length_append]
    omega

/-- Any state satisfying the invariant reaches an empty queue within its
measure's worth of steps. -/
theorem propLoop_terminates {P : Program} {E0 : List Encoding} :
    ∀ (n : Nat) (s : PState), PInv P E0 s → measureOf P E0 s ≤ n →
      ∃ k, ((propStep P)^[k] s).queue = [] := by
  intro n
  induction n with
  | zero =>
    intro s _ hm
    refine ⟨0, ?_⟩
    unfold measureOf at hm
    simp only [Function.iterate_zero_apply]
    exact List.length_eq_zero.1 (by omega)
  | succ n ih =>
    intro s hinv hm
    by_cases hq : s.queue = []
    · exact ⟨0, by simpa using hq⟩
    · obtain ⟨k, hk⟩ := ih (propStep P s) (propStep_inv hinv)
        (by have := propStep_measure hinv hq; omega)
      exact ⟨k + 1, by rw [Function.iterate_succ_apply]; exact hk⟩

/-!  ## The initial anchor map satisfies the invariant -/

theorem maybeAddAnchor_cases (P : Program) (d : Option Nat) (m : LayoutMap) (w : Value) :
    maybeAddAnchor P d m w = m ∨
    maybeAddAnchor P d m w = m ++ [(w, [(P.typeOf w).encoding])] := by
  unfold maybeAddAnchor mapVectorInsert
  by_cases ht : (P.typeOf w).isTensor
  · by_cases hs : mmaSkip P d w
    · simp [ht, hs]
    · by_cases hk : w ∈ keysOf m <;> simp [ht, hs, hk]
  · simp [ht]

theorem keysOf_append {m1 m2 : LayoutMap} : keysOf (m1 ++ m2) = keysOf m1 ++ keysOf m2 := by
  simp [keysOf]

/-- Every entry of the initial anchor map is the singleton of the value's
current encoding, and its key is a program value. -/
theorem initAnchor_shape {P : Program} :
    ∀ p ∈ initAnchorLayout P, p.1 ∈ P.allValues ∧ p.2 = [(P.typeOf p.1).encoding] := by
  unfold initAnchorLayout
  have hArgs : ∀ v ∈ P.funcArgs, v ∈ P.allValues := by
    intro v hv
    unfold Program.allValues
    exact List.mem_append_left _ hv
  have step1 : ∀ p ∈ P.funcArgs.foldl (maybeAddAnchor P none) [],
      p.1 ∈ P.allValues ∧ p.2 = [(P.typeOf p.1).encoding] := by
    refine foldl_inv (maybeAddAnchor P none)
      (fun m => ∀ p ∈ m, p.1 ∈ P.allValues ∧ p.2 = [(P.typeOf p.1).encoding])
      P.funcArgs ?_ [] (by simp)
    intro m a ha hm p hp
    rcases maybeAddAnchor_cases P none m a with heq | heq
    · rw [heq] at hp; exact hm p hp
    · rw [heq] at hp
      rcases List.mem_append.1 hp with hp | hp
      · exact hm p hp
      · rw [List.mem_singleton.1 hp]
        exact ⟨hArgs a ha, rfl⟩
  intro p hp
  refine foldl_inv _
    (fun m => ∀ p ∈ m, p.1 ∈ P.allValues ∧ p.2 = [(P.typeOf p.1).encoding])
    (withIdx 0 P.ops) ?_ _ step1 p hp
  intro m q hq hm
  by_cases ha : isLayoutAnchor q.2
  · simp only [if_pos ha]
    have hqmem : q.2 ∈ P.ops := withIdx_mem_snd hq
    refine foldl_inv (maybeAddAnchor P (some q.1))
      (fun m => ∀ p ∈ m, p.1 ∈ P.allValues ∧ p.2 = [(P.typeOf p.1).encoding])
      q.2.results ?_ m hm
    intro m' r hr hm' p' hp'
    rcases maybeAddAnchor_cases P (some q.1) m' r with heq | heq
    · rw [heq] at hp'; exact hm' p' hp'
    · rw [heq] at hp'
      rcases List.mem_append.1 hp' with hp' | hp'
      · exact hm' p' hp'
      · rw [List.mem_singleton.1 hp']
        exact ⟨mem_allValues_of_valueSet hqmem (valueSet_parts (Or.inr (Or.inl hr))), rfl⟩
  · simp only [if_neg ha]
    exact hm

theorem mapVectorInsert_keys_nodup {m : LayoutMap} {v : Value} {l : List Encoding}
    (h : (keysOf m).Nodup) : (keysOf (mapVectorInsert m v l)).Nodup := by
  unfold mapVectorInsert
  by_cases hk : v ∈ keysOf m
  · simpa [hk] using h
  · rw [if_neg hk, keysOf_append]
    refine h.append ?_ ?_
    · simp [keysOf]
    · intro a ha hav
      have hav' : a = v := by simpa [keysOf] using hav
      exact hk (hav' ▸ ha)

theorem maybeAddAnchor_keys_nodup {P : Program} {d : Option Nat} {m : LayoutMap}
    {w : Value} (h : (keysOf m).Nodup) : (keysOf (maybeAddAnchor P d m w)).Nodup := by
  unfold maybeAddAnchor
  by_cases ht : (P.typeOf w).isTensor
  · by_cases hs : mmaSkip P d w
    · simpa [ht, hs] using h
    · simp only [if_pos ht, hs, Bool.false_eq_true, if_false]
      exact mapVectorInsert_keys_nodup h
  · simpa [ht] using h

theorem initAnchor_keys_nodup {P : Program} : (keysOf (initAnchorLayout P)).Nodup := by
  unfold initAnchorLayout
  have step1 : (keysOf (P.funcArgs.foldl (maybeAddAnchor P none) [])).Nodup := by
    refine foldl_inv (maybeAddAnchor P none) (fun m => (keysOf m).Nodup)
      P.funcArgs ?_ [] (by simp [keysOf])
    intro m a _ hm
    exact maybeAddAnchor_keys_nodup hm
  refine foldl_inv _ (fun m => (keysOf m).Nodup) (withIdx 0 P.ops) ?_ _ step1
  intro m q _ hm
  by_cases ha : isLayoutAnchor q.2
  · simp only [if_pos ha]
    refine foldl_inv (maybeAddAnchor P (some q.1)) (fun m => (keysOf m).Nodup)
      q.2.results ?_ m hm
    intro m' r _ hm'
    exact maybeAddAnchor_keys_nodup hm'
  · simpa [ha] using hm

theorem mem_encsOf_of_mem {m : LayoutMap} {p : Value × List Encoding} {e : Encoding}
    (hp : p ∈ m) (he : e ∈ p.2) : e ∈ encsOf m := by
  unfold encsOf
  rw [List.mem_flatten]
  exact ⟨p.2, List.mem_map_of_mem _ hp, he⟩

/-- The initial worklist state satisfies the invariant, with pool the
encodings of the initial anchor map itself. -/
theorem initPropState_inv (P : Program) :
    PInv P (encsOf (initAnchorLayout P)) (initPropState P) := by
  refine ⟨?_, ?_, ?_, ?_, ?_, ?_⟩
  · intro p hp
    rw [(initAnchor_shape p hp).2]
    simp
  · intro p hp
    rw [(initAnchor_shape p hp).2]
    exact List.nodup_singleton _
  · intro p hp e he
    exact mem_encsOf_of_mem hp he
  · intro w hw
    simp only [initPropState] at hw
    rw [keysOf, List.mem_map] at hw
    obtain ⟨p, hp, rfl⟩ := hw
    exact (initAnchor_shape p hp).1
  · exact initAnchor_keys_nodup
  · intro v hv
    exact hv

theorem iterate_PInv {P : Program} {E0 : List Encoding} {s : PState}
    (h : PInv P E0 s) : ∀ n, PInv P E0 ((propStep P)^[n] s) := by
  intro n
  induction n with
  | zero => simpa using h
  | succ n ih =>
    rw [Function.iterate_succ_apply']
    exact propStep_inv ih

theorem lookup_append_of_some {m1 m2 : LayoutMap} {v : Value} {l : List Encoding}
    (h : lookupEncs m1 v = some l) : lookupEncs (m1 ++ m2) v = some l := by
  induction m1 with
  | nil => simp [lookupEncs] at h
  | cons p rest ih =>
    simp only [lookupEncs, List.cons_append] at h ⊢
    by_cases hp : p.1 = v
    · simpa [hp] using h
    · rw [if_neg hp] at h ⊢
      exact ih h

/-- One worklist step never removes a candidate from any value's set. -/
theorem propStep_mono {P : Program} {s : PState} {v : Value} {l : List Encoding}
    (h : lookupEncs s.layouts v = some l) :
    ∃ l', lookupEncs (propStep P s).layouts v = some l' ∧ l ⊆ l' := by
  cases hq : s.queue.getLast? with
  | none =>
    rw [propStep_empty (List.getLast?_eq_none_iff.1 hq)]
    exact ⟨l, h, List.Subset.refl l⟩
  | some w =>
    unfold propStep
    rw [hq]
    cases hw : lookupEncs s.layouts w with
    | some lw =>
      simp only [hw]
      exact propagateToUsers_mono h
    | none =>
      simp only [hw]
      exact propagateToUsers_mono (lookup_append_of_some h)

theorem iterate_stable {P : Program} {s : PState} {n : Nat}
    (h : ((propStep P)^[n] s).queue = []) :
    ∀ k, (propStep P)^[n + k] s = (propStep P)^[n] s := by
  intro k
  induction k with
  | zero => rfl
  | succ k ih =>
    have : n + (k + 1) = (n + k) + 1 := rfl
    rw [this, Function.iterate_succ_apply', ih, propStep_empty h]

/-- Claim C3: the forward-propagation worklist fixpoint terminates for
every input program — a step either grows some candidate set or shrinks the
queue, candidate sets only ever gain elements, and candidates are drawn
from the finite pool seeded by the anchors — so after finitely many steps
the queue is empty and the state is stable. -/
theorem claim3_propagateLayout_terminates (P : Program) :
    (∃ n, ((propStep P)^[n] (initPropState P)).queue = [] ∧
      ∀ k, (propStep P)^[n + k] (initPropState P) = (propStep P)^[n] (initPropState P)) ∧
    (∀ (s : PState) (v : Value) (l : List Encoding),
      lookupEncs s.layouts v = some l →
      ∃ l', lookupEncs (propStep P s).layouts v = some l' ∧ l ⊆ l') := by
  constructor
  · obtain ⟨k, hk⟩ := @propLoop_terminates P (encsOf (initAnchorLayout P))
      (measureOf P (encsOf (initAnchorLayout P)) (initPropState P)) (initPropState P)
      (initPropState_inv P) (le_refl _)
    exact ⟨k, hk, iterate_stable hk⟩
  · intro s v l h
    exact propStep_mono h

/-- A one-anchor program used to witness claim C3's monotonicity part. -/
def exEnc3 : Encoding := ⟨EncFamily.blocked, 0, 0⟩

/-- An example program: no operations, every value a blocked tensor. -/
def exP3 : Program := ⟨[], [], fun _ => ⟨true, exEnc3, 0⟩, fun _ _ => false⟩

/-- A witness for claim C3's monotonicity part: on a one-anchor state the
only candidate of the anchored value survives a worklist step. -/
theorem claim3_witness :
    ∃ l', lookupEncs (propStep exP3 ⟨[(0, [exEnc3])], [0]⟩).layouts 0 = some l' ∧
      [exEnc3] ⊆ l' :=
  (claim3_propagateLayout_terminates exP3).2 ⟨[(0, [exEnc3])], [0]⟩ 0 [exEnc3] (by rfl)

/-- Each entry of a nonempty list resolves to a single encoding. -/
theorem resolveEntry_length {op? : Option Operation} {l : List Encoding}
    (h : l ≠ []) : (resolveEntry op? l).length = 1 := by
  match l with
  | [] => exact absurd rfl h
  | [e] => rfl
  | e0 :: e1 :: rest => rfl

/-- Claim C1: for every value that has an entry in the Value-Layout Map,
after `resolveConflicts` has run (on the map produced by anchor
initialization followed by any number of propagation steps) the entry's
candidate-encoding set has size exactly 1 — the precondition asserted by
the rewrite phase for every mapped value. -/
theorem claim1_single_layout_after_resolve (P : Program) (fuel : Nat) :
    ((resolveConflicts P ((propStep P)^[fuel] (initPropState P)).layouts).all
      fun p => p.2.length == 1) = true := by
  rw [List.all_eq_true]
  intro p hp
  unfold resolveConflicts at hp
  rw [List.mem_map] at hp
  obtain ⟨q, hq, rfl⟩ := hp
  have hinv := iterate_PInv (initPropState_inv P) fuel
  have hne : q.2 ≠ [] := hinv.entNonempty q hq
  simpa using resolveEntry_length hne

/-!  ## Conflict resolution: claims C4 and C10 -/

theorem lookup_resolveConflicts {P : Program} {m : LayoutMap} {v : Value}
    {encs : List Encoding} (h : lookupEncs m v = some encs) :
    lookupEncs (resolveConflicts P m) v = some (resolveEntry (opDef P v) encs) := by
  induction m with
  | nil => simp [lookupEncs] at h
  | cons p rest ih =>
    simp only [lookupEncs, resolveConflicts, List.map_cons] at h ⊢
    by_cases hp : p.1 = v
    · rw [if_pos hp] at h ⊢
      rw [hp, Option.some_inj.1 h]
    · rw [if_neg hp] at h ⊢
      exact ih h

theorem find?_eq_head?_filter {α : Type} {l : List α} {p : α → Bool} :
    l.find? p = (l.filter p).head? := by
  induction l with
  | nil => rfl
  | cons a t ih =>
    by_cases h : p a
    · rw [List.find?_cons_of_pos _ h, List.filter_cons_of_pos h]
      rfl
    · rw [List.find?_cons_of_neg _ h, List.filter_cons_of_neg (by simpa using h)]
      exact ih

/-- Claim C4: for a value with more than one candidate, `resolveConflicts`
keeps the first candidate in insertion order by default, overridden by the
first blocked-family candidate when the value's defining operation is a
load, store or atomic memory op, and otherwise by the first MMA-family
candidate when one is present (the claim's statement of the choice is the
function `specResolveChoice`). -/
theorem claim4_resolve_priority (P : Program) (m : LayoutMap) (v : Value)
    (encs : List Encoding) (hl : lookupEncs m v = some encs)
    (hlen : 1 < encs.length) :
    lookupEncs (resolveConflicts P m) v =
      (specResolveChoice (isLoadStoreAtomic (opDef P v)) encs).map fun e => [e] := by
  rw [lookup_resolveConflicts hl]
  match encs, hlen with
  | e0 :: e1 :: rest, _ =>
    unfold resolveEntry specResolveChoice
    cases hLS : isLoadStoreAtomic (opDef P v) with
    | true =>
      simp only [hLS, if_true, Option.map_some]
      rw [find?_eq_head?_filter]
      rfl
    | false =>
      simp only [hLS, Bool.false_eq_true, if_false, Option.map_some]
      rw [find?_eq_head?_filter]
      rfl

/-- Example program for claim C4's witness: one expensive load defining
value 0. -/
def exP4 : Program :=
  ⟨[⟨OpKind.load, [], [0], [], [], [], none, true, false⟩], [],
    fun _ => ⟨true, ⟨EncFamily.blocked, 0, 1⟩, 0⟩, fun _ _ => false⟩

/-- Witness for claim C4 at a concrete two-candidate entry of a
load-defined value: the first blocked candidate wins. -/
theorem claim4_witness :
    lookupEncs (resolveConflicts exP4
        [(0, [⟨EncFamily.nvidiaMma, 2, 0⟩, ⟨EncFamily.blocked, 0, 1⟩])]) 0 =
      (specResolveChoice (isLoadStoreAtomic (opDef exP4 0))
        [⟨EncFamily.nvidiaMma, 2, 0⟩, ⟨EncFamily.blocked, 0, 1⟩]).map (fun e => [e]) :=
  claim4_resolve_priority exP4 _ 0
    [⟨EncFamily.nvidiaMma, 2, 0⟩, ⟨EncFamily.blocked, 0, 1⟩] (by rfl) (by decide)

/-- Claim C10: for a value with more than one candidate, the single
encoding `resolveConflicts` keeps is always a member of the value's
pre-resolution candidate set — it never fabricates a new encoding. -/
theorem claim10_resolved_is_member (P : Program) (m : LayoutMap) (v : Value)
    (encs : List Encoding) (hl : lookupEncs m v = some encs)
    (hlen : 1 < encs.length) :
    ∃ e, lookupEncs (resolveConflicts P m) v = some [e] ∧ e ∈ encs := by
  rw [lookup_resolveConflicts hl]
  match encs, hlen with
  | e0 :: e1 :: rest, _ =>
    unfold resolveEntry
    cases hf : (e0 :: e1 :: rest).find? fun e =>
        if isLoadStoreAtomic (opDef P v) = true then decide (e.family = EncFamily.blocked)
        else decide (e.family = EncFamily.nvidiaMma) with
    | none => exact ⟨e0, by rfl, by simp⟩
    | some e => exact ⟨e, by rfl, List.mem_of_find?_eq_some hf⟩

/-- Example program for claim C10's witness: no operations at all, so the
mapped value has no defining operation. -/
def exP10 : Program :=
  ⟨[], [], fun _ => ⟨true, ⟨EncFamily.blocked, 0, 0⟩, 0⟩, fun _ _ => false⟩

/-- Witness for claim C10 at a concrete two-candidate entry: the kept
encoding is one of the two pre-resolution candidates. -/
theorem claim10_witness :
    ∃ e, lookupEncs (resolveConflicts exP10
        [(5, [⟨EncFamily.otherEnc, 0, 3⟩, ⟨EncFamily.nvidiaMma, 2, 7⟩])]) 5 = some [e] ∧
      e ∈ [⟨EncFamily.otherEnc, 0, 3⟩, (⟨EncFamily.nvidiaMma, 2, 7⟩ : Encoding)] :=
  claim10_resolved_is_member exP10 _ 5
    [⟨EncFamily.otherEnc, 0, 3⟩, ⟨EncFamily.nvidiaMma, 2, 7⟩] (by rfl) (by decide)

/-!  ## Claim C6: propagation through for-loop init operands -/

theorem usesFold_mono {P : Program} {info : List Encoding} {l : List (Nat × Nat)}
    {acc : LayoutMap × List Value} {w : Value} {lw : List Encoding}
    (h : lookupEncs acc.1 w = some lw) :
    ∃ l', lookupEncs (l.foldl (propagateUse P info) acc).1 w = some l' ∧ lw ⊆ l' := by
  have := foldl_rel (propagateUse P info)
    (fun x y => ∀ w l, lookupEncs x.1 w = some l →
      ∃ l', lookupEncs y.1 w = some l' ∧ l ⊆ l') l
    (fun a b c hab hbc w l hl => by
      obtain ⟨l1, hl1, hs1⟩ := hab w l hl
      obtain ⟨l2, hl2, hs2⟩ := hbc w l1 hl1
      exact ⟨l2, hl2, hs1.trans hs2⟩)
    (fun b a _ w l hl => by
      rcases propagateUse_cases P info b a with heq | ⟨opId, op, values, _, heq⟩
      · rw [heq]; exact ⟨l, hl, List.Subset.refl l⟩
      · rw [heq]; exact setEncoding_mono hl)
    (fun b w l hl => ⟨l, hl, List.Subset.refl l⟩) acc
  exact this w lw h

/-- Claim C6: during forward propagation, when a value with candidate
layouts is used as a loop-carried (init) operand of an `scf.for`, each
candidate layout the oracle does not refuse is propagated into both the
tied loop-body iteration argument and the tied loop result — the same
destination layout for both. -/
theorem claim6_for_init_propagates_arg_and_result (P : Program) (v : Value)
    (info : List Encoding) (m : LayoutMap) (i n : Nat) (user : Operation)
    (arg res : Value)
    (huser : P.ops.get? i = some user) (hkind : user.kind = OpKind.forOp)
    (huse : (i, n) ∈ P.usesOf v) (hn : 3 ≤ n)
    (harg : user.iterArgs.get? (n - 3) = some arg)
    (hres : user.results.get? (n - 3) = some res)
    (hargT : (P.typeOf arg).isTensor = true) (hresT : (P.typeOf res).isTensor = true)
    (hok : ∀ e ∈ info, P.refuses i e = false) :
    ∀ e ∈ info,
      (∃ l, lookupEncs (propagateToUsers P v info m).1 arg = some l ∧ e ∈ l) ∧
      (∃ l, lookupEncs (propagateToUsers P v info m).1 res = some l ∧ e ∈ l) := by
  have hdst : ∀ e ∈ info, dstEncodingFor P i user e = some e := by
    intro e he
    unfold dstEncodingFor inferDstEncoding
    rw [hkind]
    simp [hok e he]
  obtain ⟨s, t, hsplit⟩ := List.append_of_mem huse
  unfold propagateToUsers
  rw [hsplit, List.foldl_append, List.foldl_cons]
  set acc1 := s.foldl (propagateUse P info) (m, []) with hacc1
  have hstep : propagateUse P info acc1 (i, n) =
      setEncoding P i user info ([arg] ++ [res]) acc1 := by
    unfold propagateUse
    simp only [huser, hkind]
    rw [if_neg (by omega : ¬ (i, n).2 < 3)]
    have h1 : (i, n).2 - 3 = n - 3 := rfl
    rw [h1, harg, hres]
    rfl
  rw [hstep]
  have hse : (setEncoding P i user info ([arg] ++ [res]) acc1).1 =
      (setEncodingValue P i user info
        (setEncodingValue P i user info acc1.1 arg).1 res).1 := by
    simp only [setEncoding, List.cons_append, List.nil_append, List.foldl_cons,
      List.foldl_nil]
  intro e he
  have hargIns : ∃ l, lookupEncs (setEncodingValue P i user info acc1.1 arg).1 arg =
      some l ∧ e ∈ l := by
    unfold setEncodingValue
    rw [hargT]
    simp only [if_true]
    exact setEncGo_insert_all hdst e he
  have hresIns : ∃ l, lookupEncs (setEncodingValue P i user info
      (setEncodingValue P i user info acc1.1 arg).1 res).1 res = some l ∧ e ∈ l := by
    unfold setEncodingValue
    rw [hresT]
    simp only [if_true]
    exact setEncGo_insert_all hdst e he
  have hargIns2 : ∃ l, lookupEncs (setEncodingValue P i user info
      (setEncodingValue P i user info acc1.1 arg).1 res).1 arg = some l ∧ e ∈ l := by
    obtain ⟨l1, hl1, hm1⟩ := hargIns
    obtain ⟨l2, hl2, hs2⟩ := @setEncodingValue_mono P i user info
      (setEncodingValue P i user info acc1.1 arg).1 res arg l1 hl1
    exact ⟨l2, hl2, hs2 hm1⟩
  constructor
  · obtain ⟨l1, hl1, hm1⟩ := hargIns2
    obtain ⟨l2, hl2, hs2⟩ := @usesFold_mono P info t
      (setEncoding P i user info ([arg] ++ [res]) acc1) arg l1
      (by rw [hse]; exact hl1)
    exact ⟨l2, hl2, hs2 hm1⟩
  · obtain ⟨l1, hl1, hm1⟩ := hresIns
    obtain ⟨l2, hl2, hs2⟩ := @usesFold_mono P info t
      (setEncoding P i user info ([arg] ++ [res]) acc1) res l1
      (by rw [hse]; exact hl1)
    exact ⟨l2, hl2, hs2 hm1⟩

/-- Example encoding for claim C6's witness. -/
def exEnc6 : Encoding := ⟨EncFamily.blocked, 0, 6⟩

/-- The scf.for of claim C6's witness: value 0 is its only init operand
(operand 3), tied to iteration argument 5 and result 6. -/
def exFor6 : Operation := ⟨OpKind.forOp, [100, 101, 102, 0], [6], [5], [], [], none, false, false⟩

/-- Example program for claim C6's witness: an expensive load defining
value 0, which feeds the loop's init operand. -/
def exP6 : Program :=
  ⟨[⟨OpKind.load, [], [0], [], [], [], none, true, false⟩, exFor6], [],
    fun _ => ⟨true, exEnc6, 0⟩, fun _ _ => false⟩

/-- Witness for claim C6: the candidate of value 0 lands in both the
iteration argument 5 and the loop result 6. -/
theorem claim6_witness :
    (∃ l, lookupEncs (propagateToUsers exP6 0 [exEnc6] []).1 5 = some l ∧ exEnc6 ∈ l) ∧
    (∃ l, lookupEncs (propagateToUsers exP6 0 [exEnc6] []).1 6 = some l ∧ exEnc6 ∈ l) :=
  claim6_for_init_propagates_arg_and_result exP6 0 [exEnc6] [] 1 3 exFor6 5 6
    (by rfl) (by rfl) (by decide) (by decide) (by rfl) (by rfl) (by rfl) (by rfl)
    (fun _ _ => rfl) exEnc6 (by decide)

/-!  ## Claim C7: rematerialization slice soundness -/

/-- Consequences of passing `canBeRemat`: loads and stores are not
expensive, and the operation is none of the never-duplicated kinds. -/
theorem canBeRemat_props {op : Operation} (h : canBeRemat op = true) :
    (op.kind = OpKind.load ∨ op.kind = OpKind.store → op.expensive = false) ∧
    op.kind ≠ OpKind.extractSlice ∧ op.kind ≠ OpKind.allocTensor ∧
    op.kind ≠ OpKind.insertSliceAsync ∧ op.kind ≠ OpKind.dot ∧
    op.kind ≠ OpKind.atomicRMW ∧ op.kind ≠ OpKind.atomicCAS ∧
    op.kind ≠ OpKind.ifOp ∧ op.kind ≠ OpKind.whileOp ∧
    op.kind ≠ OpKind.conditionOp := by
  cases hk : op.kind <;> simp [canBeRemat, hk] at h ⊢ <;> try exact h

/-- Claim C7: whenever `getRematerializableSlice` accepts a backward slice,
every operation defining a slice member passes `canBeRemat`: it is not an
expensive load/store, not a tensor-slice/allocate/insert-async op, not a
matmul, not an atomic, and not an if/while/condition control construct —
so those operations are never duplicated by slice rewriting.  The backward
slice computation itself is external and passed as a parameter. -/
theorem claim7_remat_slice_sound (P : Program) (backSlice : BackSliceFn)
    (root : Value) (rootEncoding : Encoding) (slice : List Value)
    (layout : List (Value × Encoding))
    (h : getRematerializableSlice P backSlice root rootEncoding = some (slice, layout)) :
    ∀ v ∈ slice, ∀ op, opDef P v = some op →
      canBeRemat op = true ∧
      (op.kind = OpKind.load ∨ op.kind = OpKind.store → op.expensive = false) ∧
      op.kind ≠ OpKind.extractSlice ∧ op.kind ≠ OpKind.allocTensor ∧
      op.kind ≠ OpKind.insertSliceAsync ∧ op.kind ≠ OpKind.dot ∧
      op.kind ≠ OpKind.atomicRMW ∧ op.kind ≠ OpKind.atomicCAS ∧
      op.kind ≠ OpKind.ifOp ∧ op.kind ≠ OpKind.whileOp ∧
      op.kind ≠ OpKind.conditionOp := by
  unfold getRematerializableSlice at h
  cases hbs : backSlice root rootEncoding with
  | none => rw [hbs] at h; exact absurd h (by simp)
  | some sl =>
    rw [hbs] at h
    dsimp only at h
    by_cases hemp : sl.1.isEmpty
    · rw [if_pos hemp] at h
      exact absurd h (by simp)
    · rw [if_neg hemp] at h
      by_cases hall : sl.1.all fun v =>
          match opDef P v with
          | some op => canBeRemat op
          | none => true
      · rw [if_pos hall] at h
        have hsl : sl = (slice, layout) := Option.some_inj.1 h
        intro v hv op hop
        have hv' : v ∈ sl.1 := by rw [hsl]; exact hv
        have hpred := List.all_eq_true.1 hall v hv'
        rw [hop] at hpred
        exact ⟨hpred, canBeRemat_props hpred⟩
      · rw [if_neg hall] at h
        exact absurd h (by simp)

/-- The elementwise operation of claim C7's witness, defining value 1. -/
def exOp7 : Operation := ⟨OpKind.otherOp, [], [1], [], [], [], none, false, true⟩

/-- Example program for claim C7's witness. -/
def exP7 : Program :=
  ⟨[exOp7], [], fun _ => ⟨true, ⟨EncFamily.blocked, 0, 7⟩, 0⟩, fun _ _ => false⟩

/-- Witness for claim C7 on a one-operation slice accepted by the
rematerializability check. -/
theorem claim7_witness :
    canBeRemat exOp7 = true ∧
    (exOp7.kind = OpKind.load ∨ exOp7.kind = OpKind.store → exOp7.expensive = false) ∧
    exOp7.kind ≠ OpKind.extractSlice ∧ exOp7.kind ≠ OpKind.allocTensor ∧
    exOp7.kind ≠ OpKind.insertSliceAsync ∧ exOp7.kind ≠ OpKind.dot ∧
    exOp7.kind ≠ OpKind.atomicRMW ∧ exOp7.kind ≠ OpKind.atomicCAS ∧
    exOp7.kind ≠ OpKind.ifOp ∧ exOp7.kind ≠ OpKind.whileOp ∧
    exOp7.kind ≠ OpKind.conditionOp :=
  claim7_remat_slice_sound exP7
    (fun _ _ => some ([1], [(1, ⟨EncFamily.blocked, 0, 7⟩)])) 1
    ⟨EncFamily.blocked, 0, 7⟩ [1] [(1, ⟨EncFamily.blocked, 0, 7⟩)] (by rfl)
    1 (by decide) exOp7 (by rfl)

/-!  ## Claim C8: the rematerializer's decline paths mutate nothing -/

/-- Claim C8: whenever `backwardRematerialization` declines — a
shared-encoding operand or result, a dot-operand target encoding, or a
slice that fails the rematerializability check — it returns the program
exactly as it was: no operation is created, modified, or erased.  (When it
does not decline, the only thing it does is invoke the slice rewrite.) -/
theorem claim8_remat_decline_leaves_program (P : Program) (backSlice : BackSliceFn)
    (rewriteSliceFn : RewriteSliceFn) (cvt : CvtOp)
    (h : hasSharedEncoding P cvt.result = true ∨ hasSharedEncoding P cvt.src = true ∨
      (P.typeOf cvt.result).encoding.family = EncFamily.dotOperand ∨
      getRematerializableSlice P backSlice cvt.src (P.typeOf cvt.result).encoding = none) :
    backwardRematerialization P backSlice rewriteSliceFn cvt = P := by
  unfold backwardRematerialization
  by_cases h1 : (hasSharedEncoding P cvt.result || hasSharedEncoding P cvt.src) = true
  · rw [if_pos h1]
  · rw [if_neg h1]
    rw [Bool.or_eq_true] at h1
    push_neg at h1
    by_cases h2 : (P.typeOf cvt.result).encoding.family = EncFamily.dotOperand
    · rw [if_pos (by simpa using h2)]
    · rw [if_neg (by simpa using h2)]
      cases hslice : getRematerializableSlice P backSlice cvt.src
          (P.typeOf cvt.result).encoding with
      | none => rfl
      | some sl =>
        rcases h with h | h | h | h
        · exact absurd h (by simpa using h1.1)
        · exact absurd h (by simpa using h1.2)
        · exact absurd h h2
        · rw [hslice] at h
          exact absurd h (by simp)

/-- The conversion of claim C8's witness: its result value 2 carries a
dot-operand encoding, so the rematerializer must decline. -/
def exP8 : Program :=
  ⟨[], [], fun v =>
      if v = 2 then ⟨true, ⟨EncFamily.dotOperand, 0, 0⟩, 0⟩
      else ⟨true, ⟨EncFamily.blocked, 0, 0⟩, 0⟩,
    fun _ _ => false⟩

/-- Witness for claim C8: declining on a dot-operand target returns the
program unchanged, for an arbitrary slice function and slice rewriter. -/
theorem claim8_witness :
    backwardRematerialization exP8 (fun _ _ => some ([1], []))
      (fun _ _ _ _ => ⟨[], [], fun _ => ⟨false, ⟨EncFamily.blocked, 0, 0⟩, 0⟩,
        fun _ _ => false⟩) ⟨1, 2⟩ = exP8 :=
  claim8_remat_decline_leaves_program exP8 _ _ ⟨1, 2⟩
    (Or.inr (Or.inr (Or.inl (by rfl))))

/-!  ## Claim C2: getValueAs does not cache conversions -/

/-- A `find?` over an extended list still misses when the old part misses
and the new element does not match. -/
theorem find?_append_singleton_none {α β : Type} {l : List (α × β)} {p : α × β → Bool}
    {x : α × β} (h : l.find? p = none) (hx : p x = false) :
    (l ++ [x]).find? p = none := by
  induction l with
  | nil => simp [List.find?, hx]
  | cons a t ih =>
    cases hp : p a
    · simp only [List.cons_append, List.find?_cons, hp, cond_false] at h ⊢
      exact ih h
    · simp only [List.find?_cons, hp, cond_true] at h
      exact absurd h (by simp)

/-- One `getValueAs` call on a tensor value with no resolved entry and a
different target encoding: it creates exactly one fresh conversion (and
records nothing that a later call would find). -/
theorem getValueAs_creates {s : RWState} {v : Value} {e : Encoding}
    (htensor : (typeOfS s v).isTensor = true)
    (hnolayout : lookupEncs s.layouts v = none)
    (hne : ¬ (typeOfS s v).encoding = e) :
    getValueAs s v e = some
      ({ s with
          newTypes := s.newTypes ++
            [(s.nextId, { isTensor := true, encoding := e,
                          shapeTag := (typeOfS s v).shapeTag })],
          convsCreated := s.convsCreated ++ [(v, e, s.nextId)],
          nextId := s.nextId + 1 }, s.nextId) := by
  unfold getValueAs
  simp only [htensor, if_true, hnolayout]
  rw [if_neg hne]

/-- Claim C2, amended: `getValueAs` does not cache conversions — a second
call with the same (value, targetLayout) pair, after the first call has
inserted a conversion for that pair, inserts a second, distinct conversion
operation (each single call inserts at most one). -/
theorem claim2_amended_not_cached (s : RWState) (v : Value) (e : Encoding)
    (hnew : s.newTypes.find? (fun p => decide (p.1 = v)) = none)
    (hfresh : v ≠ s.nextId)
    (htensor : (s.base.typeOf v).isTensor = true)
    (hnolayout : lookupEncs s.layouts v = none)
    (hne : ¬ (s.base.typeOf v).encoding = e) :
    ∃ s1 r1 s2 r2,
      getValueAs s v e = some (s1, r1) ∧ getValueAs s1 v e = some (s2, r2) ∧
      s1.convsCreated.length = s.convsCreated.length + 1 ∧
      s2.convsCreated.length = s.convsCreated.length + 2 := by
  have ht1 : typeOfS s v = s.base.typeOf v := by
    unfold typeOfS
    rw [hnew]
  have hcall1 := getValueAs_creates (s := s) (v := v) (e := e)
    (by rw [ht1]; exact htensor) hnolayout (by rw [ht1]; exact hne)
  set s1 : RWState :=
    { s with
        newTypes := s.newTypes ++
          [(s.nextId, { isTensor := true, encoding := e,
                        shapeTag := (typeOfS s v).shapeTag })],
        convsCreated := s.convsCreated ++ [(v, e, s.nextId)],
        nextId := s.nextId + 1 } with hs1
  have ht2 : typeOfS s1 v = s.base.typeOf v := by
    have hfind : s1.newTypes.find? (fun p => decide (p.1 = v)) = none := by
      rw [hs1]
      exact find?_append_singleton_none hnew (decide_eq_false (Ne.symm hfresh))
    unfold typeOfS
    rw [hfind, hs1]
  have hcall2 := getValueAs_creates (s := s1) (v := v) (e := e)
    (by rw [ht2]; exact htensor)
    (by rw [hs1]; exact hnolayout)
    (by rw [ht2]; exact hne)
  refine ⟨s1, s.nextId, _, s1.nextId, hcall1, hcall2, ?_, ?_⟩
  · rw [hs1]; simp
  · rw [hs1]; simp

/-- Example program and state for claim C2's counterexample: value 0 is a
blocked tensor, unmapped in the resolved layouts; the target is an MMA
encoding. -/
def exP2 : Program :=
  ⟨[], [], fun _ => ⟨true, ⟨EncFamily.blocked, 0, 0⟩, 0⟩, fun _ _ => false⟩

/-- The rewrite state for claim C2's counterexample. -/
def exS2 : RWState := ⟨exP2, [], [], [], [], 100⟩

/-- Counterexample to claim C2 as stated: calling `getValueAs` twice with
the same (value, targetLayout) pair inserts a second conversion — the
conversion count after the second call is 2, not the 1 the claim demands. -/
theorem claim2_counterexample :
    ¬ (((getValueAs exS2 0 ⟨EncFamily.nvidiaMma, 2, 0⟩).bind fun p =>
          getValueAs p.1 0 ⟨EncFamily.nvidiaMma, 2, 0⟩).map
          (fun p => p.1.convsCreated.length) =
        (getValueAs exS2 0 ⟨EncFamily.nvidiaMma, 2, 0⟩).map
          fun p => p.1.convsCreated.length) ∧
    ((getValueAs exS2 0 ⟨EncFamily.nvidiaMma, 2, 0⟩).map
        fun p => p.1.convsCreated.length) = some 1 ∧
    (((getValueAs exS2 0 ⟨EncFamily.nvidiaMma, 2, 0⟩).bind fun p =>
        getValueAs p.1 0 ⟨EncFamily.nvidiaMma, 2, 0⟩).map
        fun p => p.1.convsCreated.length) = some 2 := by
  refine ⟨?_, ?_, ?_⟩ <;> decide

/-- Witness for claim C2's amended theorem at the counterexample state. -/
theorem claim2_witness :
    ∃ s1 r1 s2 r2,
      getValueAs exS2 0 ⟨EncFamily.nvidiaMma, 2, 0⟩ = some (s1, r1) ∧
      getValueAs s1 0 ⟨EncFamily.nvidiaMma, 2, 0⟩ = some (s2, r2) ∧
      s1.convsCreated.length = exS2.convsCreated.length + 1 ∧
      s2.convsCreated.length = exS2.convsCreated.length + 2 :=
  claim2_amended_not_cached exS2 0 ⟨EncFamily.nvidiaMma, 2, 0⟩
    (by rfl) (by decide) (by rfl) (by rfl) (by decide)

/-!  ## Claim C9: the ConvertDotConvert pattern's applicability -/

/-- Claim C9, amended: the pattern succeeds exactly when the claim's
structural conditions hold (source is a matmul, accumulator through exactly
one conversion of a load, both single-user) AND the conversion's result
type equals the type of the load result feeding the accumulator; in all
other cases it fails and rewrites nothing. -/
theorem claim9_amended_dot_convert_match (P : Program) (i : Nat) :
    (convertDotConvert P i).isSome = true ↔
      (convertDotConvertClaimCond P i = true ∧
        convertDotConvertTypeCond P i = true) := by
  unfold convertDotConvert convertDotConvertClaimCond convertDotConvertTypeCond
    dotConvertParts
  cases h0 : P.ops.get? i with
  | none => simp [h0]
  | some dstOp =>
    simp only [h0]
    by_cases hk0 : dstOp.kind = OpKind.convertLayout
    · simp only [hk0, if_true]
      cases h1 : dstOp.operands.get? 0 with
      | none => simp [h1]
      | some srcV =>
        simp only [h1]
        cases h2 : opDef P srcV with
        | none => simp [h2]
        | some dotOp =>
          simp only [h2]
          by_cases hk1 : dotOp.kind = OpKind.dot
          · simp only [hk1, if_true]
            cases h3 : dotOp.operands.get? 2 with
            | none => simp [h3]
            | some accV =>
              simp only [h3]
              cases h4 : opDef P accV with
              | none => simp [h4]
              | some cvtOp =>
                simp only [h4]
                by_cases hk2 : cvtOp.kind = OpKind.convertLayout
                · simp only [hk2, if_true]
                  cases h5 : cvtOp.operands.get? 0 with
                  | none => simp [h5]
                  | some cvtSrc =>
                    simp only [h5]
                    cases h6 : opDef P cvtSrc with
                    | none => simp [h6]
                    | some ldOp =>
                      simp only [h6]
                      by_cases hk3 : ldOp.kind = OpKind.load
                      · simp only [hk3, if_true]
                        by_cases hc1 : opUseCount P dstOp = 1
                        · by_cases hc2 : opUseCount P dotOp = 1
                          · cases h7 : dstOp.results.get? 0 with
                            | none => simp [h7, hc1, hc2]
                            | some dstRes =>
                              simp only [h7]
                              by_cases ht : P.typeOf dstRes = P.typeOf cvtSrc
                              · simp [hc1, hc2, ht]
                              · simp [hc1, hc2, ht]
                          · simp [hc1, hc2]
                        · simp [hc1]
                      · simp [hk3]
                · simp [hk2]
          · simp [hk1]
    · simp [hk0]

/-- The operations of claim C9's counterexample program: a load feeding one
conversion into a matmul accumulator, the matmul's product converted once
more, each with a single user; values 10 and 13 get different types. -/
def exP9 : Program :=
  ⟨[⟨OpKind.load, [], [10], [], [], [], none, false, false⟩,
    ⟨OpKind.convertLayout, [10], [11], [], [], [], none, false, false⟩,
    ⟨OpKind.dot, [20, 21, 11], [12], [], [], [], none, false, false⟩,
    ⟨OpKind.convertLayout, [12], [13], [], [], [], none, false, false⟩,
    ⟨OpKind.otherOp, [13], [], [], [], [], none, false, false⟩], [],
    fun v =>
      if v = 10 then ⟨true, ⟨EncFamily.blocked, 0, 0⟩, 0⟩
      else if v = 13 then ⟨true, ⟨EncFamily.blocked, 0, 1⟩, 0⟩
      else ⟨true, ⟨EncFamily.nvidiaMma, 2, 0⟩, 0⟩,
    fun _ _ => false⟩

/-- Counterexample to claim C9 as stated: on `exP9`, operation 3 satisfies
every condition the claim lists, yet the pattern fails, because the
conversion's result type differs from the load result's type — a condition
the source checks (line 58) and the claim omits. -/
theorem claim9_counterexample :
    ¬ (((convertDotConvert exP9 3).isSome = true) ↔
        convertDotConvertClaimCond exP9 3 = true) := by
  intro h
  have h1 : convertDotConvertClaimCond exP9 3 = true := by decide
  have h2 : (convertDotConvert exP9 3).isSome = false := by decide
  rw [h.2 h1] at h2
  exact absurd h2 (by simp)

/-!  ## Claim C5: anchor seeding -/

theorem mem_keys_mapVectorInsert {m : LayoutMap} {w v : Value} {l : List Encoding} :
    v ∈ keysOf (mapVectorInsert m w l) ↔ v ∈ keysOf m ∨ v = w := by
  unfold mapVectorInsert
  by_cases hk : w ∈ keysOf m
  · rw [if_pos hk]
    constructor
    · exact Or.inl
    · rintro (h | rfl)
      · exact h
      · exact hk
  · rw [if_neg hk, keysOf_append]
    simp [keysOf]

theorem mem_keys_maybeAddAnchor {P : Program} {d : Option Nat} {m : LayoutMap}
    {w v : Value} :
    v ∈ keysOf (maybeAddAnchor P d m w) ↔
      v ∈ keysOf m ∨
        (v = w ∧ (P.typeOf w).isTensor = true ∧ mmaSkip P d w = false) := by
  unfold maybeAddAnchor
  by_cases ht : (P.typeOf w).isTensor
  · by_cases hs : mmaSkip P d w
    · simp [ht, hs]
    · simp only [ht, if_true, hs, Bool.false_eq_true, if_false]
      rw [mem_keys_mapVectorInsert]
      constructor
      · rintro (h | rfl)
        · exact Or.inl h
        · exact Or.inr ⟨rfl, by simp [ht], by simp [hs]⟩
      · rintro (h | ⟨rfl, _, _⟩)
        · exact Or.inl h
        · exact Or.inr rfl
  · simp only [ht]
    constructor
    · intro h
      exact Or.inl (by simpa using h)
    · rintro (h | ⟨rfl, ht', _⟩)
      · simpa using h
      · exact absurd ht' (by simp at ht; simp [ht])

theorem mem_keys_argsFold {P : Program} {d : Option Nat} :
    ∀ (ws : List Value) (m : LayoutMap) (v : Value),
      v ∈ keysOf (ws.foldl (maybeAddAnchor P d) m) ↔
        v ∈ keysOf m ∨
          (v ∈ ws ∧ (P.typeOf v).isTensor = true ∧ mmaSkip P d v = false) := by
  intro ws
  induction ws with
  | nil => intro m v; simp
  | cons w ws ih =>
    intro m v
    rw [List.foldl_cons, ih]
    rw [mem_keys_maybeAddAnchor]
    constructor
    · rintro ((h | ⟨rfl, ht, hs⟩) | ⟨hm, ht, hs⟩)
      · exact Or.inl h
      · exact Or.inr ⟨by simp, ht, hs⟩
      · exact Or.inr ⟨List.mem_cons_of_mem _ hm, ht, hs⟩
    · rintro (h | ⟨hm, ht, hs⟩)
      · exact Or.inl (Or.inl h)
      · rcases List.mem_cons.1 hm with rfl | hm
        · exact Or.inl (Or.inr ⟨rfl, ht, hs⟩)
        · exact Or.inr ⟨hm, ht, hs⟩

theorem mem_keys_opsFold {P : Program} :
    ∀ (l : List (Nat × Operation)) (m : LayoutMap) (v : Value),
      v ∈ keysOf (l.foldl
          (fun m p =>
            if isLayoutAnchor p.2 then p.2.results.foldl (maybeAddAnchor P (some p.1)) m
            else m) m) ↔
        v ∈ keysOf m ∨
          ∃ q ∈ l, isLayoutAnchor q.2 = true ∧ v ∈ q.2.results ∧
            (P.typeOf v).isTensor = true ∧ mmaSkip P (some q.1) v = false := by
  intro l
  induction l with
  | nil => intro m v; simp
  | cons q l ih =>
    intro m v
    rw [List.foldl_cons, ih]
    by_cases ha : isLayoutAnchor q.2
    · rw [if_pos ha, mem_keys_argsFold]
      constructor
      · rintro ((h | ⟨hm, ht, hs⟩) | ⟨q', hq', hcond⟩)
        · exact Or.inl h
        · exact Or.inr ⟨q, by simp, ha, hm, ht, hs⟩
        · exact Or.inr ⟨q', List.mem_cons_of_mem _ hq', hcond⟩
      · rintro (h | ⟨q', hq', hanch, hm, ht, hs⟩)
        · exact Or.inl (Or.inl h)
        · rcases List.mem_cons.1 hq' with rfl | hq'
          · exact Or.inl (Or.inr ⟨hm, ht, hs⟩)
          · exact Or.inr ⟨q', hq', hanch, hm, ht, hs⟩
    · rw [if_neg ha]
      constructor
      · rintro (h | ⟨q', hq', hcond⟩)
        · exact Or.inl h
        · exact Or.inr ⟨q', List.mem_cons_of_mem _ hq', hcond⟩
      · rintro (h | ⟨q', hq', hanch, hcond⟩)
        · exact Or.inl h
        · rcases List.mem_cons.1 hq' with rfl | hq'
          · exact absurd hanch (by simpa using ha)
          · exact Or.inr ⟨q', hq', hanch, hcond⟩

theorem mmaSkip_none_false {P : Program} {v : Value} : mmaSkip P none v = false := by
  unfold mmaSkip
  simp

theorem mmaSkip_some_false_iff {P : Program} {i : Nat} {v : Value} :
    mmaSkip P (some i) v = false ↔
      ((P.typeOf v).encoding.family = EncFamily.nvidiaMma →
        hasConvertToMMATransisitiveUse P i (P.typeOf v).encoding = true) := by
  unfold mmaSkip
  by_cases hm : (P.typeOf v).encoding.family = EncFamily.nvidiaMma
  · simp [hm]
  · simp [hm]

/-- Claim C5: a value is seeded as an anchor in the initial Value-Layout
Map iff it has a ranked-tensor type and is either a function parameter or a
result of an anchor-kind operation (matmul, atomic memory op, expensive
load/store, reorder-permitting reshape) — except that a result whose type
carries an MMA layout is admitted only when the forward search through its
transitive users (`hasConvertToMMATransisitiveUse`, which follows loop
back-edges from yielded values to iteration arguments) finds an eventual
conversion into the MMA family. -/
theorem claim5_anchor_seeding (P : Program) (v : Value) :
    (∃ l, lookupEncs (initAnchorLayout P) v = some l) ↔
      ((P.typeOf v).isTensor = true ∧
        (v ∈ P.funcArgs ∨
          ∃ i op, P.ops.get? i = some op ∧ isLayoutAnchor op = true ∧
            v ∈ op.results ∧
            ((P.typeOf v).encoding.family = EncFamily.nvidiaMma →
              hasConvertToMMATransisitiveUse P i (P.typeOf v).encoding = true))) := by
  rw [← mem_keysOf_iff_lookup]
  unfold initAnchorLayout
  rw [mem_keys_opsFold, mem_keys_argsFold]
  simp only [keysOf, List.map_nil, List.not_mem_nil, false_or, mmaSkip_none_false,
    and_true]
  constructor
  · rintro (⟨hm, ht⟩ | ⟨q, hq, hanch, hm, ht, hs⟩)
    · exact ⟨ht, Or.inl hm⟩
    · refine ⟨ht, Or.inr ⟨q.1, q.2, ?_, hanch, hm, mmaSkip_some_false_iff.1 hs⟩⟩
      obtain ⟨k, hk1, hk2⟩ := withIdx_mem_iff.1 (show (q.1, q.2) ∈ withIdx 0 P.ops by
        simpa using hq)
      rw [hk1]
      simpa using hk2
  · rintro ⟨ht, hm | ⟨i, op, hget, hanch, hm, hcvt⟩⟩
    · exact Or.inl ⟨hm, ht⟩
    · refine Or.inr ⟨(i, op), ?_, hanch, hm, ht, mmaSkip_some_false_iff.2 hcvt⟩
      rw [withIdx_mem_iff]
      exact ⟨i, by omega, hget⟩

end RLC
